import Mathlib

/-!
Verification of the HdrHistogram C library against its specification.

The embedding below is a shallow model of the C sources:
`src/main/c/hdr_histogram.c`, `src/main/c/hdr_writer_reader_phaser.h`,
and `src/main/c/hdr_histogram_log.c`.  Machine integers (`int64_t`,
`int32_t`) are modelled as `Int`; the two's-complement bit pattern is made
explicit (`int64_bits`) where the code uses bitwise operations, and
wrap-around is made explicit (`int64_wrap`) where the code relies on it
(the phaser's atomic counters).  C loops are modelled as structural
recursion with an explicit iteration bound (`fuel`) chosen large enough to
cover every execution the C code itself completes (each choice is justified
at the definition).  Counters never overflow in any feasible execution, so
count arithmetic is modelled exactly.
-/

/-! ### Bit-length helper

`bitLenAux` computes the binary length of a natural number (64 iterations
suffice for any 64-bit quantity); `64 - bitLen x` models `__lzcnt64(x)` for
`x < 2^64`. -/

def bitLenAux : Nat → Nat → Nat
  | 0, _ => 0
  | fuel + 1, n => if n = 0 then 0 else bitLenAux fuel (n / 2) + 1

def bitLen (n : Nat) : Nat := bitLenAux 64 n

def lzcnt64 (x : Nat) : Nat := 64 - bitLen x

/-- The two's-complement 64-bit pattern of an `int64_t` value. -/
def int64_bits (v : Int) : Nat := (v % (2 : Int) ^ 64).toNat

/-- Reinterpret a 64-bit pattern as a signed value. -/
def toSigned64 (w : Nat) : Int := if w < 2 ^ 63 then (w : Int) else (w : Int) - 2 ^ 64

/-- Reinterpret a 32-bit pattern as a signed value. -/
def toSigned32 (w : Nat) : Int := if w < 2 ^ 31 then (w : Int) else (w : Int) - 2 ^ 32

/-- Wrap a value into the `int64_t` range (used where the C code relies on
atomic fetch-add wrap-around). -/
def int64_wrap (x : Int) : Int := (x + 2 ^ 63) % 2 ^ 64 - 2 ^ 63

/-- C left shift on non-negative quantities (no use site overflows). -/
def shiftL64 (x : Int) (k : Nat) : Int := x * 2 ^ k

/-- C arithmetic right shift of a signed 64-bit value: floor division. -/
def shiftRA64 (x : Int) (k : Nat) : Int := Int.fdiv x (2 ^ k)

/-- The C expression `1 << k` where `1` is a 32-bit `int` (as in
`size_of_equivalent_value_range`): on the mainstream targets the shift
count is reduced to its low five bits and a shift into the sign bit wraps
into a negative value (the C standard leaves both undefined); converting
the `int` result to `int64_t` sign-extends, so the value is the signed
32-bit reading of the wrapped pattern. -/
def one_shl_int32 (k : Int) : Int := toSigned32 (2 ^ (int64_bits k % 32) % 2 ^ 32)

/-! ### The histogram structure (`struct hdr_histogram`) -/

structure hdr_histogram where
  highest_trackable_value : Int
  significant_figures : Int
  sub_bucket_half_count_magnitude : Int
  sub_bucket_half_count : Int
  sub_bucket_mask : Int
  sub_bucket_count : Int
  bucket_count : Int
  counts_len : Int
  total_count : Int
  counts : List Int
deriving DecidableEq, Repr

/-- `power(base, exp)` from hdr_histogram.c: repeated multiplication.
Only called with small positive arguments, where the C `int` accumulator
does not overflow. -/
def power (base : Int) : Nat → Int
  | 0 => 1
  | e + 1 => power base e * base

/-- The bucket-count loop of `hdrh_alloc`: shift `trackable_value` left until
it covers `highest_trackable_value`.  The C loop starts from a positive
`trackable_value ≥ 2047`, so at most 53 doublings reach any `int64_t`
bound; fuel 64 covers every execution the C code completes. -/
def buckets_needed : Nat → Int → Int → Int → Int
  | 0, _, _, n => n
  | fuel + 1, highest, trackable, n =>
    if trackable < highest then buckets_needed fuel highest (trackable * 2) (n + 1) else n

/-- `hdrh_alloc` (hdr_histogram.c, lines 105-154).  `none` models the
`-1` return for out-of-range significant figures (`malloc` failure is not
modelled: allocation always succeeds).  `ceil(log(x)/log(2))` computed with
doubles in C is exact for every reachable `x = 2·10^sf` and equals
`bitLen (x-1)`. -/
def hdrh_alloc (highest_trackable_value : Int) (significant_figures : Int) :
    Option hdr_histogram :=
  if significant_figures < 3 ∨ 6 < significant_figures then none
  else
    let largest_value_with_single_unit_resolution := 2 * power 10 significant_figures.toNat
    let sub_bucket_count_magnitude : Int :=
      bitLen (largest_value_with_single_unit_resolution - 1).toNat
    let sub_bucket_half_count_magnitude : Int :=
      (if sub_bucket_count_magnitude > 1 then sub_bucket_count_magnitude else 1) - 1
    let sub_bucket_count : Int := 2 ^ (sub_bucket_half_count_magnitude.toNat + 1)
    let sub_bucket_half_count : Int := sub_bucket_count / 2
    let sub_bucket_mask : Int := sub_bucket_count - 1
    let bucket_count := buckets_needed 64 highest_trackable_value (sub_bucket_count - 1) 1
    let counts_len : Int := (bucket_count + 1) * (sub_bucket_count / 2)
    some
      { highest_trackable_value := highest_trackable_value
        significant_figures := significant_figures
        sub_bucket_half_count_magnitude := sub_bucket_half_count_magnitude
        sub_bucket_half_count := sub_bucket_half_count
        sub_bucket_mask := sub_bucket_mask
        sub_bucket_count := sub_bucket_count
        bucket_count := bucket_count
        counts_len := counts_len
        total_count := 0
        counts := List.replicate counts_len.toNat 0 }

/-! ### Bucket geometry (hdr_histogram.c, lines 30-101) -/

/-- `get_bucket_index`: `pow2ceiling = 64 - __lzcnt64(value | sub_bucket_mask)`. -/
def get_bucket_index (h : hdr_histogram) (value : Int) : Int :=
  let pow2ceiling : Int :=
    64 - (lzcnt64 (int64_bits value ||| int64_bits h.sub_bucket_mask) : Int)
  pow2ceiling - (h.sub_bucket_half_count_magnitude + 1)

/-- `get_sub_bucket_index`: arithmetic right shift of the value. -/
def get_sub_bucket_index (value : Int) (bucket_index : Int) : Int :=
  shiftRA64 value bucket_index.toNat

/-- `counts_index`. -/
def counts_index (h : hdr_histogram) (bucket_index sub_bucket_index : Int) : Int :=
  let bucket_base_index := shiftL64 (bucket_index + 1) h.sub_bucket_half_count_magnitude.toNat
  let offset_in_bucket := sub_bucket_index - h.sub_bucket_half_count
  bucket_base_index + offset_in_bucket

/-- `counts_index_for`. -/
def counts_index_for (h : hdr_histogram) (value : Int) : Int :=
  let bucket_index := get_bucket_index h value
  let sub_bucket_index := get_sub_bucket_index value bucket_index
  counts_index h bucket_index sub_bucket_index

/-- `value_from_index`. -/
def value_from_index (bucket_index sub_bucket_index : Int) : Int :=
  shiftL64 sub_bucket_index bucket_index.toNat

/-- `get_count_at_index`; out-of-range reads (which well-formed states never
perform) yield 0. -/
def get_count_at_index (h : hdr_histogram) (bucket_index sub_bucket_index : Int) : Int :=
  h.counts.getD (counts_index h bucket_index sub_bucket_index).toNat 0

/-- `size_of_equivalent_value_range`: the C source computes
`1 << (...)` with the `int` literal `1`, a 32-bit shift that overflows for
shift counts past 30, and sign-extends the `int` result to `int64_t`. -/
def size_of_equivalent_value_range (h : hdr_histogram) (value : Int) : Int :=
  let bucket_index := get_bucket_index h value
  let sub_bucket_index := get_sub_bucket_index value bucket_index
  one_shl_int32 (if sub_bucket_index ≥ h.sub_bucket_count then bucket_index + 1 else bucket_index)

/-- `lowest_equivalent_value`. -/
def lowest_equivalent_value (h : hdr_histogram) (value : Int) : Int :=
  let bucket_index := get_bucket_index h value
  let sub_bucket_index := get_sub_bucket_index value bucket_index
  value_from_index bucket_index sub_bucket_index

/-- `next_non_equivalent_value`. -/
def next_non_equivalent_value (h : hdr_histogram) (value : Int) : Int :=
  lowest_equivalent_value h value + size_of_equivalent_value_range h value

/-- `highest_equivalent_value`. -/
def highest_equivalent_value (h : hdr_histogram) (value : Int) : Int :=
  next_non_equivalent_value h value - 1

/-! ### Updates (hdr_histogram.c, lines 158-195) -/

/-- `hdrh_record_value`: returns whether the value was stored, and the
updated histogram. -/
def hdrh_record_value (h : hdr_histogram) (value : Int) : Bool × hdr_histogram :=
  let ci := counts_index_for h value
  if ci < 0 ∨ h.counts_len ≤ ci then (false, h)
  else
    (true,
      { h with
        counts := h.counts.set ci.toNat (h.counts.getD ci.toNat 0 + 1)
        total_count := h.total_count + 1 })

/-- The backfill loop of `hdrh_record_corrected_value`.  Each iteration
decreases `missing_value` by `expected_interval ≥ 1`, so the fuel chosen at
the call site (`missing_value + 1`) covers every execution the C code
completes. -/
def record_missing_loop :
    Nat → hdr_histogram → Int → Int → Bool × hdr_histogram
  | 0, h, _, _ => (true, h)
  | fuel + 1, h, expected_interval, missing_value =>
    if missing_value ≥ expected_interval then
      match hdrh_record_value h missing_value with
      | (false, h1) => (false, h1)
      | (true, h1) =>
        record_missing_loop fuel h1 expected_interval (missing_value - expected_interval)
    else (true, h)

/-- `hdrh_record_corrected_value`. -/
def hdrh_record_corrected_value (h : hdr_histogram) (value expected_interval : Int) :
    Bool × hdr_histogram :=
  match hdrh_record_value h value with
  | (false, h1) => (false, h1)
  | (true, h1) =>
    if expected_interval ≤ 0 ∨ value ≤ expected_interval then (true, h1)
    else
      record_missing_loop (value - expected_interval).toNat.succ h1 expected_interval
        (value - expected_interval)

/-! ### The all-values iterator (hdr_histogram.c, lines 303-342) -/

structure hdrh_iter where
  h : hdr_histogram
  bucket_index : Int
  sub_bucket_index : Int
  count_at_index : Int
  count_to_index : Int
  value_from_index : Int
  highest_equivalent_value : Int
deriving DecidableEq, Repr

def has_next (iter : hdrh_iter) : Bool := iter.count_to_index < iter.h.total_count

def hdrh_iter_init (h : hdr_histogram) : hdrh_iter :=
  { h := h
    bucket_index := 0
    sub_bucket_index := -1
    count_at_index := 0
    count_to_index := 0
    value_from_index := 0
    highest_equivalent_value := 0 }

def hdrh_iter_next (iter : hdrh_iter) : Bool × hdrh_iter :=
  if ¬ has_next iter then (false, iter)
  else
    let sb1 := iter.sub_bucket_index + 1
    let bsb :=
      if sb1 ≥ iter.h.sub_bucket_count then (iter.bucket_index + 1, iter.h.sub_bucket_half_count)
      else (iter.bucket_index, sb1)
    let cai := get_count_at_index iter.h bsb.1 bsb.2
    (true,
      { iter with
        bucket_index := bsb.1
        sub_bucket_index := bsb.2
        count_at_index := cai
        count_to_index := iter.count_to_index + cai
        value_from_index := value_from_index bsb.1 bsb.2
        highest_equivalent_value :=
          highest_equivalent_value iter.h (value_from_index bsb.1 bsb.2) })

/-! ### Percentile query (hdr_histogram.c, lines 235-256) -/

/-- The C cast `(int64_t) x`: truncation toward zero of a rational. -/
def ratTrunc (q : ℚ) : Int := Int.tdiv q.num q.den

/-- The while loop of `hdrh_value_at_percentile`.  The loop performs at most
one iteration per counts slot plus a terminating call, so fuel
`counts.length + 1` covers every execution the C code completes on a
histogram whose `total_count` equals the sum of its counts. -/
def percentile_walk :
    Nat → hdrh_iter → Int → Int → Int
  | 0, _, _, _ => 0
  | fuel + 1, iter, total, count_at_percentile =>
    match hdrh_iter_next iter with
    | (false, _) => 0
    | (true, iter1) =>
      let total1 := total + iter1.count_at_index
      if total1 ≥ count_at_percentile then iter1.value_from_index
      else percentile_walk fuel iter1 total1 count_at_percentile

/-- `hdrh_value_at_percentile`.  The `double` percentile argument is
modelled as a rational; the arithmetic `(p/100)·total + 0.5` is exact for
every value the C computation represents exactly. -/
def hdrh_value_at_percentile (h : hdr_histogram) (percentile : ℚ) : Int :=
  let requested_percentile := if percentile < 100 then percentile else 100
  let count_at_percentile :=
    ratTrunc (requested_percentile / 100 * (h.total_count : ℚ) + 1 / 2)
  let count_at_percentile1 := if count_at_percentile > 1 then count_at_percentile else 1
  percentile_walk (h.counts.length + 1) (hdrh_iter_init h) 0 count_at_percentile1

/-! ### Well-formedness of a histogram state

`WFGeom` records the relations between the geometry fields that
`hdrh_alloc` establishes and no operation changes; `WFHist` adds the
mutable-state invariant (counts length, non-negative counts, and the
total/sum relation, which claim C2 proves is maintained). -/

def WFGeom (h : hdr_histogram) : Prop :=
  1 ≤ h.sub_bucket_half_count_magnitude ∧
  h.sub_bucket_half_count_magnitude ≤ 20 ∧
  h.sub_bucket_half_count = 2 ^ h.sub_bucket_half_count_magnitude.toNat ∧
  h.sub_bucket_count = 2 * h.sub_bucket_half_count ∧
  h.sub_bucket_mask = h.sub_bucket_count - 1 ∧
  1 ≤ h.bucket_count ∧
  h.counts_len = (h.bucket_count + 1) * h.sub_bucket_half_count

def sumCounts (h : hdr_histogram) : Int := h.counts.sum

def WFHist (h : hdr_histogram) : Prop :=
  WFGeom h ∧
  h.counts.length = h.counts_len.toNat ∧
  (∀ c ∈ h.counts, 0 ≤ c) ∧
  h.total_count = sumCounts h

instance : DecidablePred WFGeom := fun h => by unfold WFGeom; infer_instance

instance : DecidablePred WFHist := fun h => by
  unfold WFHist sumCounts
  have : Decidable (∀ c ∈ h.counts, (0:Int) ≤ c) := List.decidableBAll _ h.counts
  exact instDecidableAnd

/-- The largest value the allocated counts array can index: values in
`[0, 2^(sub_bucket_half_count_magnitude + bucket_count) - 1]` are exactly
the non-negative values `hdrh_record_value` accepts. -/
def max_recordable (h : hdr_histogram) : Int :=
  2 ^ (h.sub_bucket_half_count_magnitude + h.bucket_count).toNat - 1

/-! ### Recording sequences (claim C2) -/

inductive RecordOp where
  | plain (value : Int)
  | corrected (value expected_interval : Int)
deriving DecidableEq, Repr

def applyRecordOp (h : hdr_histogram) : RecordOp → hdr_histogram
  | RecordOp.plain v => (hdrh_record_value h v).2
  | RecordOp.corrected v ei => (hdrh_record_corrected_value h v ei).2

def applyRecordOps (h : hdr_histogram) (ops : List RecordOp) : hdr_histogram :=
  ops.foldl applyRecordOp h

/-- Number of individual samples stored by the backfill loop. -/
def missingStored :
    Nat → hdr_histogram → Int → Int → Nat
  | 0, _, _, _ => 0
  | fuel + 1, h, expected_interval, missing_value =>
    if missing_value ≥ expected_interval then
      match hdrh_record_value h missing_value with
      | (false, _) => 0
      | (true, h1) =>
        1 + missingStored fuel h1 expected_interval (missing_value - expected_interval)
    else 0

/-- Number of individual samples stored by one recording call. -/
def opStored (h : hdr_histogram) : RecordOp → Nat
  | RecordOp.plain v => if (hdrh_record_value h v).1 then 1 else 0
  | RecordOp.corrected v ei =>
    match hdrh_record_value h v with
    | (false, _) => 0
    | (true, h1) =>
      if ei ≤ 0 ∨ v ≤ ei then 1
      else 1 + missingStored (v - ei).toNat.succ h1 ei (v - ei)

/-- Number of individual samples stored by a sequence of recording calls. -/
def opsStored : hdr_histogram → List RecordOp → Nat
  | _, [] => 0
  | h, op :: rest => opStored h op + opsStored (applyRecordOp h op) rest

/-! ### Declarative view of the percentile walk (claims C3 and C5)

`firstReach cs cap` is the first index whose cumulative count reaches
`cap`; `slotCoords`/`slotValue` give the (bucket, sub-bucket) pair and the
`value_from_index` of the i-th counts slot, in the order the all-values
iterator visits them. -/

def firstReach : List Int → Int → Option Nat
  | [], _ => none
  | c :: rest, cap =>
    if cap ≤ c then some 0 else (firstReach rest (cap - c)).map (· + 1)

def slotCoords (h : hdr_histogram) (i : Nat) : Int × Int :=
  let half := h.sub_bucket_half_count.toNat
  if i < h.sub_bucket_count.toNat then ((0 : Int), (i : Int))
  else (((i / half : Nat) : Int) - 1, ((half + i % half : Nat) : Int))

def slotValue (h : hdr_histogram) (i : Nat) : Int :=
  value_from_index (slotCoords h i).1 (slotCoords h i).2

/-- Claim C3's description of `hdrh_value_at_percentile`, taken verbatim
from the spec: clamp the percentile to 100, take the threshold
`round((p/100)·total_count)`, stop at the first slot whose cumulative count
reaches the threshold and return the highest equivalent value of that
slot; return 0 for an empty histogram. -/
def claimValueAtPercentile (h : hdr_histogram) (p : ℚ) : Int :=
  if h.total_count = 0 then 0
  else
    let threshold := round (min p 100 / 100 * (h.total_count : ℚ))
    match firstReach h.counts threshold with
    | some i => highest_equivalent_value h (slotValue h i)
    | none => 0

/-- The amended description: the threshold is
`max(1, trunc((p/100)·total_count + 1/2))` and the returned value is the
slot's `value_from_index` (its lowest equivalent value); 0 when no slot
reaches the threshold (in particular for an empty histogram). -/
def amendedValueAtPercentile (h : hdr_histogram) (p : ℚ) : Int :=
  let threshold := max 1 (ratTrunc (min p 100 / 100 * (h.total_count : ℚ) + 1 / 2))
  match firstReach h.counts threshold with
  | some i => slotValue h i
  | none => 0

/-! ### The writer/reader phaser (hdr_writer_reader_phaser.h)

The three epoch fields are modelled directly; the reader mutex is owned by
the single flipping reader and is not part of the shared state.  The
atomic fetch-adds wrap like the hardware they run on. -/

structure hdr_writer_reader_phaser where
  start_epoch : Int
  even_end_epoch : Int
  odd_end_epoch : Int
deriving DecidableEq, Repr

/-- `hdr_writer_reader_phaser_init` (lines 50-76): note the source
initialises `odd_end_epoch` to `INT64_MAX`. -/
def hdr_writer_reader_phaser_init : hdr_writer_reader_phaser :=
  { start_epoch := 0
    even_end_epoch := 0
    odd_end_epoch := 2 ^ 63 - 1 }

/-- `hdr_phaser_writer_enter`: fetch-add on `start_epoch`, returning the
previous value. -/
def hdr_phaser_writer_enter (p : hdr_writer_reader_phaser) :
    Int × hdr_writer_reader_phaser :=
  (p.start_epoch, { p with start_epoch := int64_wrap (p.start_epoch + 1) })

/-- `hdr_phaser_writer_exit`: bump the end epoch selected by the token's
sign. -/
def hdr_phaser_writer_exit (p : hdr_writer_reader_phaser)
    (critical_value_at_enter : Int) : hdr_writer_reader_phaser :=
  if critical_value_at_enter < 0 then
    { p with odd_end_epoch := int64_wrap (p.odd_end_epoch + 1) }
  else
    { p with even_end_epoch := int64_wrap (p.even_end_epoch + 1) }

/-- The first half of `hdr_phaser_flip_phase` (lines 117-136): read the
phase, pre-set the incoming phase's end epoch (the source uses `INT64_MAX`
for the odd phase), and exchange `start_epoch`; returns the exchanged
start value, the new-phase parity, and the new state. -/
def hdr_phaser_flip_begin (p : hdr_writer_reader_phaser) :
    Int × Bool × hdr_writer_reader_phaser :=
  let next_phase_is_even := p.start_epoch < 0
  let initial_start_value : Int := if next_phase_is_even then 0 else 2 ^ 63 - 1
  let p1 :=
    if next_phase_is_even then { p with even_end_epoch := initial_start_value }
    else { p with odd_end_epoch := initial_start_value }
  (p1.start_epoch, next_phase_is_even, { p1 with start_epoch := initial_start_value })

/-- The spin-wait condition of `hdr_phaser_flip_phase` (lines 138-165):
the loop exits, and `flip_phase` returns, once the outgoing phase's end
epoch equals the exchanged start value. -/
def hdr_phaser_flip_caught_up (next_phase_is_even : Bool) (start_value_at_flip : Int)
    (p : hdr_writer_reader_phaser) : Bool :=
  if next_phase_is_even then p.odd_end_epoch == start_value_at_flip
  else p.even_end_epoch == start_value_at_flip

/-! ### Base64 codec (hdr_histogram_log.c, lines 136-287) -/

def base64_table : List Char :=
  [ 'A', 'B', 'C', 'D', 'E', 'F', 'G', 'H', 'I', 'J', 'K', 'L', 'M',
    'N', 'O', 'P', 'Q', 'R', 'S', 'T', 'U', 'V', 'W', 'X', 'Y', 'Z',
    'a', 'b', 'c', 'd', 'e', 'f', 'g', 'h', 'i', 'j', 'k', 'l', 'm',
    'n', 'o', 'p', 'q', 'r', 's', 't', 'u', 'v', 'w', 'x', 'y', 'z',
    '0', '1', '2', '3', '4', '5', '6', '7', '8', '9', '+', '/' ]

def get_base_64 (value_24_bit : Nat) (shift : Nat) : Char :=
  let value_6_bit := 0x3F &&& (value_24_bit >>> shift)
  base64_table.getD value_6_bit 'A'

/-- `from_base_64`; invalid characters yield `EINVAL` (22), which the C
decoder does not check. -/
def from_base_64 (c : Char) : Int :=
  if 'A' ≤ c ∧ c ≤ 'Z' then (c.toNat : Int) - ('A'.toNat : Int)
  else if 'a' ≤ c ∧ c ≤ 'z' then ((c.toNat : Int) - ('a'.toNat : Int)) + 26
  else if '0' ≤ c ∧ c ≤ '9' then ((c.toNat : Int) - ('0'.toNat : Int)) + 52
  else if c = '+' then 62
  else if c = '/' then 63
  else if c = '=' then 0
  else 22

def base64_encoded_len (decoded_size : Nat) : Nat := (decoded_size + 2) / 3 * 4

def base64_decoded_len (encoded_size : Nat) : Nat := encoded_size / 4 * 3

def base64_encode_block (b0 b1 b2 : Nat) : List Char :=
  let value_24_bit := (b0 <<< 16) + (b1 <<< 8) + b2
  [ get_base_64 value_24_bit 18, get_base_64 value_24_bit 12,
    get_base_64 value_24_bit 6, get_base_64 value_24_bit 0 ]

/-- `base64_encode_block_pad`: the final block of 0, 1 or 2 bytes (the C
switch on `pad` emits nothing for `pad = 0`). -/
def base64_encode_block_pad : List Nat → List Char
  | [b0] =>
    let value_24_bit := b0 <<< 16
    [ get_base_64 value_24_bit 18, get_base_64 value_24_bit 12, '=', '=' ]
  | [b0, b1] =>
    let value_24_bit := (b0 <<< 16) + (b1 <<< 8)
    [ get_base_64 value_24_bit 18, get_base_64 value_24_bit 12,
      get_base_64 value_24_bit 6, '=' ]
  | _ => []

/-- The body of `base64_encode`: whole blocks, then the padded remainder. -/
def base64_encode_blocks : List Nat → List Char
  | b0 :: b1 :: b2 :: rest => base64_encode_block b0 b1 b2 ++ base64_encode_blocks rest
  | rest => base64_encode_block_pad rest

/-- `base64_encode` with its buffer-length check; `none` models `EINVAL`. -/
def base64_encode (input : List Nat) (output_len : Nat) : Option (List Char) :=
  if base64_encoded_len input.length ≠ output_len then none
  else some (base64_encode_blocks input)

/-- `base64_decode_block`: rebuild the 24-bit group and split it into three
bytes. -/
def base64_decode_block (c0 c1 c2 c3 : Char) : List Nat :=
  let value_24_bit :=
    (from_base_64 c0).toNat <<< 18 ||| (from_base_64 c1).toNat <<< 12 |||
      (from_base_64 c2).toNat <<< 6 ||| (from_base_64 c3).toNat
  [ (value_24_bit >>> 16) &&& 0xFF, (value_24_bit >>> 8) &&& 0xFF, value_24_bit &&& 0xFF ]

def base64_decode_blocks : List Char → List Nat
  | c0 :: c1 :: c2 :: c3 :: rest => base64_decode_block c0 c1 c2 c3 ++ base64_decode_blocks rest
  | _ => []

/-- `base64_decode` with its length checks; `none` models `EINVAL`. -/
def base64_decode (input : List Char) (output_len : Nat) : Option (List Nat) :=
  if input.length < 4 ∨ input.length % 4 ≠ 0 ∨ input.length / 4 * 3 ≠ output_len then none
  else some (base64_decode_blocks input)

/-! ### Log header parsing (hdr_histogram_log.c, lines 88-126 and 595-746)

Files are modelled as the list of lines `fgets` returns; each line is its
character list. -/

def starts_with : List Char → Char → Bool
  | [], _ => true
  | x :: rest, c => if x.isWhitespace then starts_with rest c else x == c

def is_comment (s : List Char) : Bool := starts_with s '#'

structure log_header where
  major_version : Int
  minor_version : Int
  start_time_ms : Int
deriving DecidableEq, Repr

/-- Digits-value helper for the `%d` conversions of `sscanf`. -/
def decimal_value (ds : List Char) : Int :=
  ds.foldl (fun a c => a * 10 + ((c.toNat : Int) - ('0'.toNat : Int))) 0

/-- One `%d` conversion of `sscanf`: skip whitespace, optional sign, at
least one digit; returns the value and the rest of the line. -/
def scan_decimal (cs : List Char) : Option (Int × List Char) :=
  let cs1 := cs.dropWhile (·.isWhitespace)
  match cs1 with
  | '-' :: rest =>
    let ds := rest.takeWhile (·.isDigit)
    if ds = [] then none else some (-(decimal_value ds), rest.dropWhile (·.isDigit))
  | rest =>
    let ds := rest.takeWhile (·.isDigit)
    if ds = [] then none else some (decimal_value ds, rest.dropWhile (·.isDigit))

/-- Literal-text matching of `sscanf`. -/
def drop_literal (lit : List Char) (cs : List Char) : Option (List Char) :=
  if lit.isPrefixOf cs then some (cs.drop lit.length) else none

/-- `scan_log_format`: `sscanf(line, "#[Histogram log format version %d.%d]", ...)`.
Returns the assigned conversions (`sscanf` stores each converted field even
when a later directive fails). -/
def scan_log_format (line : List Char) : Option Int × Option Int :=
  match drop_literal ("#[Histogram log format version ".toList) line with
  | none => (none, none)
  | some rest =>
    match scan_decimal rest with
    | none => (none, none)
    | some (major, rest1) =>
      match rest1 with
      | '.' :: rest2 =>
        match scan_decimal rest2 with
        | none => (some major, none)
        | some (minor, _) => (some major, some minor)
      | _ => (some major, none)

/-- `scan_start_time`: `sscanf(line, "#[StartTime: %d.%d [^\n]", ...)`;
the header field is set only when both conversions succeed. -/
def scan_start_time (line : List Char) (header : log_header) : log_header :=
  match drop_literal ("#[StartTime: ".toList) line with
  | none => header
  | some rest =>
    match scan_decimal rest with
    | none => header
    | some (timestamp_s, rest1) =>
      match rest1 with
      | '.' :: rest2 =>
        match scan_decimal rest2 with
        | none => header
        | some (trailing_ms, _) =>
          { header with start_time_ms := timestamp_s * 1000 + trailing_ms }
      | _ => header

/-- Apply `scan_log_format`'s assignments to the header. -/
def apply_log_format (line : List Char) (header : log_header) : log_header :=
  match scan_log_format line with
  | (some major, some minor) => { header with major_version := major, minor_version := minor }
  | (some major, none) => { header with major_version := major }
  | _ => header

/-- The comment-reading loop of `parse_log_comments`: scan each leading
comment line into the (initially zeroed) header; stop at end of file or at
the first non-comment line. -/
def parse_log_comments_loop : List (List Char) → log_header → log_header
  | [], header => header
  | line :: rest, header =>
    if is_comment line then
      parse_log_comments_loop rest (scan_start_time line (apply_log_format line header))
    else header

def parse_log_comments (lines : List (List Char)) : log_header :=
  parse_log_comments_loop lines { major_version := 0, minor_version := 0, start_time_ms := 0 }

/-- `hdr_parse_log` (lines 727-746): parses the comments, never inspects
the version (the source carries `TODO: Check log file version`), and
returns 0 unconditionally. -/
def hdr_parse_log (lines : List (List Char)) : Int :=
  let _header := parse_log_comments lines
  0

/-- The error code the spec assigns to a missing or unparseable
format-version line.  No such constant exists in this source revision; the
value mirrors the later revisions' `HDR_LOG_INVALID_VERSION`. -/
def HDR_LOG_INVALID_VERSION : Int := -29990

/-! ### Compressed decoding (hdr_histogram_log.c, lines 489-593) -/

def EINVAL : Int := 22

def ENOMEM : Int := 12

def HDR_COMPRESSION_COOKIE_MISMATCH : Int := -29999

def HDR_ENCODING_COOKIE_MISMATCH : Int := -29998

def HDR_INFLATE_INIT_FAIL : Int := -29995

def HDR_INFLATE_FAIL : Int := -29994

def ENCODING_COOKIE : Nat := 0x1c849308 + (8 <<< 4)

def COMPRESSION_COOKIE : Nat := 0x1c849309 + (8 <<< 4)

/-- Big-endian 32-bit read (`be32toh` of a stored field). -/
def be32_of (bs : List Nat) (off : Nat) : Nat :=
  bs.getD off 0 * 2 ^ 24 + bs.getD (off + 1) 0 * 2 ^ 16 +
    bs.getD (off + 2) 0 * 2 ^ 8 + bs.getD (off + 3) 0

/-- Big-endian 64-bit read (`be64toh` of a stored field). -/
def be64_of (bs : List Nat) (off : Nat) : Nat :=
  be32_of bs off * 2 ^ 32 + be32_of bs (off + 4)

/-- The histogram structure revision targeted by the log codec (the
`hdr_histogram.h` declaration with a `lowest_trackable_value`); only the
fields the decoder fills are modelled. -/
structure hdr_histogram_v1 where
  lowest_trackable_value : Int
  highest_trackable_value : Int
  significant_figures : Int
  counts_len : Int
  total_count : Int
  counts : List Int
deriving DecidableEq, Repr

/-- Modelled from the spec: `hdr_init` — the allocation entry point the
decoder calls; its definition is not part of this source snapshot (which
only carries the older `hdrh_alloc`).  Per the spec it validates the
arguments (significant figures in 1..5, `lowest ≥ 1`,
`highest ≥ 2·lowest`), derives the geometry (`unit_magnitude =
floor(log2 lowest)`, sub-bucket counts as in `hdrh_alloc`, the smallest
bucket count covering `highest`), and allocates a zeroed histogram.
Allocation failure is abstracted by `alloc_ok`. -/
def hdr_init_m (alloc_ok : Bool) (lowest highest : Int) (sf : Int) :
    Option hdr_histogram_v1 :=
  if sf < 1 ∨ 5 < sf ∨ lowest < 1 ∨ highest < 2 * lowest then none
  else if ¬ alloc_ok then none
  else
    let unit_magnitude : Int := (bitLen lowest.toNat : Int) - 1
    let largest := 2 * power 10 sf.toNat
    let sub_bucket_count_magnitude : Int := bitLen (largest - 1).toNat
    let shcm : Int :=
      (if sub_bucket_count_magnitude > 1 then sub_bucket_count_magnitude else 1) - 1
    let sub_bucket_count : Int := 2 ^ (shcm.toNat + 1)
    let bucket_count :=
      buckets_needed 64 highest (shiftL64 (sub_bucket_count - 1) unit_magnitude.toNat) 1
    let counts_len : Int := (bucket_count + 1) * (sub_bucket_count / 2)
    some
      { lowest_trackable_value := lowest
        highest_trackable_value := highest
        significant_figures := sf
        counts_len := counts_len
        total_count := 0
        counts := List.replicate counts_len.toNat 0 }

/-- The abstract inflater: `inflateInit`'s success, the first `inflate`
call (its return code and the header bytes written), and one entry per
iteration of the counts loop (return code and the delivered 64-bit
big-endian words).  Quantifying over it covers every possible zlib
behaviour. -/
structure zlib_inflate where
  init_ok : Bool
  header_step : Int × List Nat
  counts_steps : List (Int × List Nat)

/-- Overwrite `cs` starting at `idx` with `vals`. -/
def overwrite_at (cs : List Int) (idx : Nat) (vals : List Int) : List Int :=
  cs.take idx ++ vals ++ cs.drop (idx + vals.length)

/-- The counts-inflating do-while loop of `hdr_decode_compressed`: each
iteration delivers at most one chunk (512 counts), byte-swapped into the
histogram until `counts_len` is reached; a return code other than `Z_OK`
(0) or `Z_STREAM_END` (1) aborts, and `Z_OK` continues the loop.
Exhausted steps model a stream that delivers no further data. -/
def inflate_counts_loop :
    List (Int × List Nat) → hdr_histogram_v1 → Nat → Int × hdr_histogram_v1
  | [], h, _ => (0, h)
  | (rc, words) :: rest, h, idx =>
    if rc ≠ 0 ∧ rc ≠ 1 then (HDR_INFLATE_FAIL, h)
    else
      let avail := words.take 512
      let takeN := min avail.length (h.counts_len.toNat - idx)
      let h1 := { h with counts := overwrite_at h.counts idx ((avail.take takeN).map toSigned64) }
      if rc = 0 then inflate_counts_loop rest h1 (idx + takeN) else (0, h1)

/-- `hdr_decode_compressed`: returns the status code and the final value
of `*result`. -/
def hdr_decode_compressed (buffer : List Nat) (length : Nat) (zlib : zlib_inflate)
    (alloc_ok : Bool) (result : Option hdr_histogram_v1) :
    Int × Option hdr_histogram_v1 :=
  if length < 8 ∨ result ≠ none then (EINVAL, result)
  else if be32_of buffer 0 ≠ COMPRESSION_COOKIE then (HDR_COMPRESSION_COOKIE_MISMATCH, result)
  else
    let _compressed_length := be32_of buffer 4
    if ¬ zlib.init_ok then (HDR_INFLATE_INIT_FAIL, result)
    else if zlib.header_step.1 ≠ 0 then (HDR_INFLATE_FAIL, result)
    else
      let flyweight_bytes :=
        zlib.header_step.2.take 32 ++ List.replicate (32 - min 32 zlib.header_step.2.length) 0
      if be32_of flyweight_bytes 0 ≠ ENCODING_COOKIE then (HDR_ENCODING_COOKIE_MISMATCH, result)
      else
        let lowest_trackable_value := toSigned64 (be64_of flyweight_bytes 8)
        let highest_trackable_value := toSigned64 (be64_of flyweight_bytes 16)
        let significant_figures := toSigned32 (be32_of flyweight_bytes 4)
        match hdr_init_m alloc_ok lowest_trackable_value highest_trackable_value
            significant_figures with
        | none => (ENOMEM, result)
        | some h =>
          let h1 := { h with total_count := toSigned64 (be64_of flyweight_bytes 24) }
          let reth := inflate_counts_loop zlib.counts_steps h1 0
          if reth.1 ≠ 0 then (reth.1, result) else (0, some reth.2)

/-! ### Concrete fixtures used by witnesses and counterexamples -/

def emptyHist : hdr_histogram :=
  { highest_trackable_value := 0
    significant_figures := 0
    sub_bucket_half_count_magnitude := 0
    sub_bucket_half_count := 0
    sub_bucket_mask := 0
    sub_bucket_count := 0
    bucket_count := 0
    counts_len := 0
    total_count := 0
    counts := [] }

/-- A histogram from `hdrh_alloc(2000, 3)`. -/
def histEx2000 : hdr_histogram := (hdrh_alloc 2000 3).getD emptyHist

/-- `histEx2000` after `hdrh_record_value(h, 1)`. -/
def histEx2000r : hdr_histogram := (hdrh_record_value histEx2000 1).2

/-- The bucket exponent of a non-negative value: the shift applied to the
value's top bits by the geometry (0 inside bucket 0). -/
def bucketK (h : hdr_histogram) (v : Int) : Nat :=
  max (bitLen v.toNat) (h.sub_bucket_half_count_magnitude.toNat + 1) -
    (h.sub_bucket_half_count_magnitude.toNat + 1)

/-- A histogram from `hdrh_alloc(4000, 3)`: two buckets. -/
def histEx4000 : hdr_histogram := (hdrh_alloc 4000 3).getD emptyHist

/-- `histEx4000` after `hdrh_record_value(h, 4000)`. -/
def histEx4000r : hdr_histogram := (hdrh_record_value histEx4000 4000).2

/-- A histogram from `hdrh_alloc(2^45, 3)`: its trackable range reaches
values whose bucket index exceeds 30, where the 32-bit shift of
`size_of_equivalent_value_range` overflows. -/
def histEx2p45 : hdr_histogram := (hdrh_alloc (2 ^ 45) 3).getD emptyHist

/-- The phaser state after `init` followed by one completed `flip_phase`. -/
def phaserAfterFlip : hdr_writer_reader_phaser :=
  (hdr_phaser_flip_begin hdr_writer_reader_phaser_init).2.2

/-- The loop invariant of the all-values iterator: after `pos` yields the
cursor sits on slot `pos - 1` and has accumulated the first `pos` counts. -/
def IterInv (h : hdr_histogram) (iter : hdrh_iter) (pos : Nat) : Prop :=
  iter.h = h ∧ pos ≤ h.counts.length ∧
  iter.count_to_index = (h.counts.take pos).sum ∧
  (pos = 0 → iter.bucket_index = 0 ∧ iter.sub_bucket_index = -1) ∧
  (1 ≤ pos → (iter.bucket_index, iter.sub_bucket_index) = slotCoords h (pos - 1) ∧
    iter.value_from_index = slotValue h (pos - 1))

/-- The mutable-state part of the histogram invariant: the counts array has
its allocated length and holds non-negative counters. -/
def StateOK (h : hdr_histogram) : Prop :=
  h.counts.length = h.counts_len.toNat ∧ ∀ c ∈ h.counts, 0 ≤ c

/-! ## Lemmas about the helpers -/

theorem bitLenAux_le_iff {fuel n k : Nat} (h : n < 2 ^ fuel) :
    bitLenAux fuel n ≤ k ↔ n < 2 ^ k := by
  induction fuel generalizing n k with
  | zero =>
    have hn : n = 0 := by omega
    subst hn
    constructor
    · intro _
      exact Nat.pos_pow_of_pos k (by norm_num)
    · intro _
      exact Nat.zero_le k
  | succ fuel ih =>
    rw [bitLenAux]
    by_cases hn : n = 0
    · subst hn
      simp [Nat.pos_pow_of_pos, Nat.pos_pow_of_pos k (by norm_num : 0 < 2)]
    · simp only [hn, if_false]
      have hdiv : n / 2 < 2 ^ fuel := by
        rw [Nat.div_lt_iff_lt_mul (by norm_num : 0 < 2)]
        calc n < 2 ^ (fuel + 1) := h
        _ = 2 ^ fuel * 2 := by ring
      cases k with
      | zero =>
        simp only [Nat.succ_le_iff]
        constructor
        · omega
        · intro hlt
          exact absurd (Nat.lt_one_iff.mp hlt) hn
      | succ k =>
        rw [Nat.succ_le_succ_iff, ih hdiv, Nat.div_lt_iff_lt_mul (by norm_num : 0 < 2)]
        rw [pow_succ]

theorem bitLen_le_iff {n k : Nat} (h : n < 2 ^ 64) : bitLen n ≤ k ↔ n < 2 ^ k :=
  bitLenAux_le_iff h

theorem lt_two_pow_bitLen {n : Nat} (h : n < 2 ^ 64) : n < 2 ^ bitLen n :=
  (bitLen_le_iff h).1 le_rfl

theorem bitLen_le_64 {n : Nat} (h : n < 2 ^ 64) : bitLen n ≤ 64 :=
  (bitLen_le_iff h).2 h

theorem bitLen_pos {n : Nat} (h : n < 2 ^ 64) (hn : n ≠ 0) : 1 ≤ bitLen n := by
  by_contra hc
  have : bitLen n ≤ 0 := by omega
  have := (bitLen_le_iff h).1 this
  interval_cases n
  · exact hn rfl

theorem two_pow_bitLen_pred_le {n : Nat} (h : n < 2 ^ 64) (hn : n ≠ 0) :
    2 ^ (bitLen n - 1) ≤ n := by
  by_contra hc
  push_neg at hc
  have h1 : bitLen n ≤ bitLen n - 1 := (bitLen_le_iff h).2 hc
  have h2 := bitLen_pos h hn
  omega

theorem bitLen_mono {n m : Nat} (hle : n ≤ m) (hm : m < 2 ^ 64) : bitLen n ≤ bitLen m :=
  (bitLen_le_iff (lt_of_le_of_lt hle hm)).2 (lt_of_le_of_lt hle (lt_two_pow_bitLen hm))

theorem bitLen_eq {n k : Nat} (hk : 1 ≤ k) (h1 : 2 ^ (k - 1) ≤ n) (h2 : n < 2 ^ k)
    (h64 : n < 2 ^ 64) : bitLen n = k := by
  refine le_antisymm ((bitLen_le_iff h64).2 h2) ?_
  by_contra hc
  push_neg at hc
  have : bitLen n ≤ k - 1 := by omega
  have := (bitLen_le_iff h64).1 this
  omega

theorem bitLen_two_pow_sub_one {m : Nat} (hm : 1 ≤ m) (hm64 : m ≤ 64) :
    bitLen (2 ^ m - 1) = m := by
  have h64 : 2 ^ m - 1 < 2 ^ 64 := by
    have : (2:Nat) ^ m ≤ 2 ^ 64 := Nat.pow_le_pow_right (by norm_num) hm64
    have : (0:Nat) < 2 ^ m := Nat.pos_pow_of_pos m (by norm_num)
    omega
  refine bitLen_eq hm ?_ (by have : (0:Nat) < 2 ^ m := Nat.pos_pow_of_pos m (by norm_num); omega) h64
  have h1 : (2:Nat) ^ (m - 1) * 2 = 2 ^ m := by
    rw [← pow_succ]
    congr 1
    omega
  have h2 : (0:Nat) < 2 ^ (m - 1) := Nat.pos_pow_of_pos _ (by norm_num)
  omega

theorem le_lor_left (x y : Nat) : x ≤ x ||| y :=
  Nat.le_of_testBit fun i h => by rw [Nat.testBit_lor, h, Bool.true_or]

theorem le_lor_right (x y : Nat) : y ≤ x ||| y :=
  Nat.le_of_testBit fun i h => by rw [Nat.testBit_lor, h, Bool.or_true]

theorem lor_lt_two_pow {x y n : Nat} (hx : x < 2 ^ n) (hy : y < 2 ^ n) :
    x ||| y < 2 ^ n :=
  Nat.bitwise_lt_two_pow hx hy

theorem bitLen_lor {x y : Nat} (hx : x < 2 ^ 64) (hy : y < 2 ^ 64) :
    bitLen (x ||| y) = max (bitLen x) (bitLen y) := by
  have hor : x ||| y < 2 ^ 64 := lor_lt_two_pow hx hy
  refine le_antisymm ?_ (max_le (bitLen_mono (le_lor_left x y) hor)
    (bitLen_mono (le_lor_right x y) hor))
  refine (bitLen_le_iff hor).2 (lor_lt_two_pow ?_ ?_)
  · exact lt_of_lt_of_le (lt_two_pow_bitLen hx)
      (Nat.pow_le_pow_right (by norm_num) (le_max_left _ _))
  · exact lt_of_lt_of_le (lt_two_pow_bitLen hy)
      (Nat.pow_le_pow_right (by norm_num) (le_max_right _ _))

theorem int64_bits_of_nonneg {v : Int} (h0 : 0 ≤ v) (h64 : v < 2 ^ 64) :
    int64_bits v = v.toNat := by
  unfold int64_bits
  rw [Int.emod_eq_of_lt h0 h64]

theorem int64_bits_of_neg {v : Int} (h0 : v < 0) (h64 : -(2 ^ 64) ≤ v) :
    int64_bits v = (v + 2 ^ 64).toNat := by
  unfold int64_bits
  have hp : (2:Int) ^ 64 = 18446744073709551616 := by norm_num
  have : v % (2:Int) ^ 64 = v + 2 ^ 64 := by
    rw [hp] at h64 ⊢
    omega
  rw [this]

/-! ## Allocation establishes the geometry invariants -/

theorem buckets_needed_ge :
    ∀ (fuel : Nat) (highest trackable n : Int), n ≤ buckets_needed fuel highest trackable n := by
  intro fuel
  induction fuel with
  | zero => intro highest trackable n; simp [buckets_needed]
  | succ fuel ih =>
    intro highest trackable n
    rw [buckets_needed]
    split
    · exact le_trans (by omega) (ih highest (trackable * 2) (n + 1))
    · exact le_refl n

theorem buckets_needed_covers :
    ∀ (fuel : Nat) (highest trackable n : Int), 0 < trackable →
      highest ≤ trackable * 2 ^ fuel →
      highest ≤ trackable * 2 ^ (buckets_needed fuel highest trackable n - n).toNat := by
  intro fuel
  induction fuel with
  | zero =>
    intro highest trackable n _ hcov
    rw [buckets_needed]
    simpa using hcov
  | succ fuel ih =>
    intro highest trackable n hpos hcov
    rw [buckets_needed]
    split
    · have hrec := ih highest (trackable * 2) (n + 1) (by omega)
        (by calc highest ≤ trackable * 2 ^ (fuel + 1) := hcov
              _ = trackable * 2 * 2 ^ fuel := by ring)
      have hge := buckets_needed_ge fuel highest (trackable * 2) (n + 1)
      set r := buckets_needed fuel highest (trackable * 2) (n + 1) with hr
      have htn : (r - n).toNat = (r - (n + 1)).toNat + 1 := by omega
      rw [htn, pow_succ]
      calc highest ≤ trackable * 2 * 2 ^ (r - (n + 1)).toNat := hrec
        _ = trackable * (2 ^ (r - (n + 1)).toNat * 2) := by ring
    · next hstop =>
      push_neg at hstop
      simpa using hstop

theorem hdrh_alloc_spec {H sf : Int} {h : hdr_histogram}
    (halloc : hdrh_alloc H sf = some h) :
    WFHist h ∧ h.total_count = 0 ∧ h.highest_trackable_value = H ∧
      h.bucket_count = buckets_needed 64 H (h.sub_bucket_count - 1) 1 := by
  unfold hdrh_alloc at halloc
  split at halloc
  · exact absurd halloc (by simp)
  · next hsf =>
    push_neg at hsf
    obtain ⟨hsf3, hsf6⟩ := hsf
    rw [Option.some_inj] at halloc
    subst halloc
    refine ⟨⟨⟨?_, ?_, ?_, ?_, ?_, ?_, rfl⟩, ?_, ?_, ?_⟩, rfl, rfl, rfl⟩
    · interval_cases sf <;> (dsimp only) <;> decide
    · interval_cases sf <;> (dsimp only) <;> decide
    · interval_cases sf <;> (dsimp only) <;> decide
    · interval_cases sf <;> (dsimp only) <;> decide
    · interval_cases sf <;> (dsimp only) <;> decide
    · exact buckets_needed_ge 64 H _ 1
    · simp
    · intro c hc
      rw [List.eq_of_mem_replicate hc]
    · simp [sumCounts]

/-! ## Index arithmetic for non-negative values -/

theorem natCast_ediv (a b : Nat) : ((a : Int)) / ((b : Int)) = ((a / b : Nat) : Int) := by
  rw [Int.ofNat_tdiv a b, Int.tdiv_eq_ediv (by positivity) (by positivity)]

theorem int64_bits_mask {h : hdr_histogram} (hg : WFGeom h) :
    int64_bits h.sub_bucket_mask = 2 ^ (h.sub_bucket_half_count_magnitude.toNat + 1) - 1 := by
  obtain ⟨hm1, hm20, hhalf, hcount, hmask, -, -⟩ := hg
  set M := h.sub_bucket_half_count_magnitude.toNat with hM
  have hM1 : 1 ≤ M := by omega
  have hM20 : M ≤ 20 := by omega
  have hmaskval : h.sub_bucket_mask = 2 ^ (M + 1) - 1 := by
    rw [hmask, hcount, hhalf]
    ring
  rw [hmaskval, int64_bits_of_nonneg]
  · have : ((2:Int) ^ (M+1) - 1) = (((2 ^ (M+1) - 1 : Nat)) : Int) := by
      have : (1:Nat) ≤ 2 ^ (M+1) := Nat.one_le_two_pow
      push_cast [this]
      ring
    rw [this, Int.toNat_natCast]
  · have : (0:Int) < 2 ^ (M+1) := by positivity
    omega
  · have : (2:Int) ^ (M + 1) ≤ 2 ^ 21 := pow_le_pow_right₀ (by norm_num) (by omega)
    have h21 : (2:Int) ^ 21 < 2 ^ 64 := by norm_num
    omega

theorem get_bucket_index_nonneg {h : hdr_histogram} (hg : WFGeom h) {v : Int}
    (h0 : 0 ≤ v) (h63 : v < 2 ^ 63) :
    get_bucket_index h v =
      ((max (bitLen v.toNat) (h.sub_bucket_half_count_magnitude.toNat + 1) -
        (h.sub_bucket_half_count_magnitude.toNat + 1) : Nat) : Int) := by
  have hmaskbits := int64_bits_mask hg
  obtain ⟨hm1, hm20, hhalf, hcount, hmask, -, -⟩ := hg
  set M := h.sub_bucket_half_count_magnitude.toNat with hM
  have hM1 : 1 ≤ M := by omega
  have hM20 : M ≤ 20 := by omega
  have hvN : v.toNat < 2 ^ 64 := by
    have h1 : v < (2:Int) ^ 64 := lt_trans h63 (by norm_num)
    exact (Int.toNat_lt h0).2 (by exact_mod_cast h1)
  have hvbits : int64_bits v = v.toNat := int64_bits_of_nonneg h0 (lt_trans h63 (by norm_num))
  have hmaskN : (2:Nat) ^ (M + 1) - 1 < 2 ^ 64 := by
    have : (2:Nat) ^ (M + 1) ≤ 2 ^ 21 := Nat.pow_le_pow_right (by norm_num) (by omega)
    have h21 : (2:Nat) ^ 21 < 2 ^ 64 := by norm_num
    omega
  have hw64 : v.toNat ||| (2 ^ (M + 1) - 1) < 2 ^ 64 := lor_lt_two_pow hvN hmaskN
  have hwlen : bitLen (v.toNat ||| (2 ^ (M + 1) - 1)) = max (bitLen v.toNat) (M + 1) := by
    rw [bitLen_lor hvN hmaskN, bitLen_two_pow_sub_one (by omega) (by omega)]
  have hble : bitLen (v.toNat ||| (2 ^ (M + 1) - 1)) ≤ 64 := bitLen_le_64 hw64
  have hshcm : h.sub_bucket_half_count_magnitude = (M : Int) := by
    rw [hM]
    exact (Int.toNat_of_nonneg (by omega)).symm
  unfold get_bucket_index lzcnt64
  rw [hvbits, hmaskbits, hshcm, hwlen]
  rw [hwlen] at hble
  have hmax : M + 1 ≤ max (bitLen v.toNat) (M + 1) := le_max_right _ _
  generalize hL : max (bitLen v.toNat) (M + 1) = L at hble hmax ⊢
  dsimp only
  omega

theorem get_sub_bucket_index_natCast {v : Int} (h0 : 0 ≤ v) (k : Nat) :
    get_sub_bucket_index v (k : Int) = ((v.toNat / 2 ^ k : Nat) : Int) := by
  unfold get_sub_bucket_index shiftRA64
  rw [Int.toNat_natCast, Int.fdiv_eq_ediv _ (by positivity)]
  conv_lhs => rw [← Int.toNat_of_nonneg h0]
  have h2 : ((2:Int)) ^ k = (((2 ^ k : Nat)) : Int) := by push_cast; ring
  rw [h2, natCast_ediv]

theorem counts_index_eval {h : hdr_histogram} (hg : WFGeom h) (k sb : Int) :
    counts_index h k sb =
      (k + 1) * 2 ^ h.sub_bucket_half_count_magnitude.toNat +
        (sb - 2 ^ h.sub_bucket_half_count_magnitude.toNat) := by
  obtain ⟨-, -, hhalf, -, -, -, -⟩ := hg
  unfold counts_index shiftL64
  rw [hhalf]

theorem hdrh_record_value_fst_iff (h : hdr_histogram) (v : Int) :
    (hdrh_record_value h v).1 = true ↔
      0 ≤ counts_index_for h v ∧ counts_index_for h v < h.counts_len := by
  unfold hdrh_record_value
  dsimp only
  split
  · next hc =>
    simp only [Bool.false_eq_true, false_iff]
    rintro ⟨hge, hlt⟩
    rcases hc with hc | hc <;> omega
  · next hc =>
    push_neg at hc
    constructor
    · intro _
      exact ⟨hc.1, hc.2⟩
    · intro _
      rfl

theorem counts_index_for_nonneg_spec {h : hdr_histogram} (hg : WFGeom h) {v : Int}
    (h0 : 0 ≤ v) (h63 : v < 2 ^ 63) :
    0 ≤ counts_index_for h v ∧
      (counts_index_for h v < h.counts_len ↔ v ≤ max_recordable h) := by
  have hgbi := get_bucket_index_nonneg hg h0 h63
  obtain ⟨hm1, hm20, hhalf, hcount, hmask, hbc1, hlen⟩ := hg
  set M := h.sub_bucket_half_count_magnitude.toNat with hM
  have hM1 : 1 ≤ M := by omega
  have hshcm : h.sub_bucket_half_count_magnitude = (M : Int) := by
    rw [hM]
    exact (Int.toNat_of_nonneg (by omega)).symm
  set B := h.bucket_count.toNat with hB
  have hB1 : 1 ≤ B := by omega
  have hbcB : h.bucket_count = (B : Int) := by
    rw [hB]
    exact (Int.toNat_of_nonneg (by omega)).symm
  have hvN : v.toNat < 2 ^ 64 := by
    have h1 : v < (2:Int) ^ 64 := lt_trans h63 (by norm_num)
    exact (Int.toNat_lt h0).2 (by exact_mod_cast h1)
  set k := max (bitLen v.toNat) (M + 1) - (M + 1) with hk
  have hmax : M + 1 ≤ max (bitLen v.toNat) (M + 1) := le_max_right _ _
  have hmaxk : max (bitLen v.toNat) (M + 1) = M + 1 + k := by omega
  set sbN := v.toNat / 2 ^ k with hsb
  -- the flat index is k·2^M + sbN
  have hidx : counts_index_for h v = (k : Int) * 2 ^ M + (sbN : Int) := by
    unfold counts_index_for
    rw [hgbi]
    dsimp only
    rw [get_sub_bucket_index_natCast h0 k]
    rw [counts_index_eval ⟨hm1, hm20, hhalf, hcount, hmask, hbc1, hlen⟩]
    rw [← hM, ← hsb]
    ring
  -- vN < 2^(M+1+k)
  have hvlt : v.toNat < 2 ^ (M + 1 + k) := by
    calc v.toNat < 2 ^ bitLen v.toNat := lt_two_pow_bitLen hvN
      _ ≤ 2 ^ (M + 1 + k) := by
        apply Nat.pow_le_pow_right (by norm_num)
        omega
  -- sbN < 2^(M+1)
  have hsblt : sbN < 2 ^ (M + 1) := by
    rw [hsb, Nat.div_lt_iff_lt_mul (Nat.pos_pow_of_pos k (by norm_num)), ← pow_add]
    exact hvlt
  -- k ≥ 1 → 2^M ≤ sbN
  have hsbge : 1 ≤ k → 2 ^ M ≤ sbN := by
    intro hk1
    have hblen : bitLen v.toNat = M + 1 + k := by omega
    have hvne : v.toNat ≠ 0 := by
      intro hzero
      rw [hzero] at hblen
      have : bitLen 0 = 0 := by decide
      omega
    have hge : 2 ^ (M + k) ≤ v.toNat := by
      have := two_pow_bitLen_pred_le hvN hvne
      rw [hblen] at this
      simpa using this
    have : 2 ^ (M + k) / 2 ^ k ≤ sbN := Nat.div_le_div_right hge
    rwa [Nat.pow_div (by omega) (by norm_num), Nat.add_sub_cancel] at this
  constructor
  · rw [hidx]
    positivity
  · rw [hidx, hlen, hhalf, hbcB]
    unfold max_recordable
    rw [hshcm, hbcB]
    have htn : ((M : Int) + (B : Int)).toNat = M + B := by omega
    rw [htn]
    have hvtoN : v = (v.toNat : Int) := (Int.toNat_of_nonneg h0).symm
    constructor
    · -- accepted → v ≤ 2^(M+B) - 1
      intro hacc
      rw [hvtoN]
      by_contra hgt
      push_neg at hgt
      have hvge : 2 ^ (M + B) ≤ v.toNat := by
        have : ((2:Int) ^ (M + B) : Int) ≤ (v.toNat : Int) := by
          have hcast : ((2:Int)) ^ (M + B) = (((2 ^ (M + B) : Nat)) : Int) := by push_cast; ring
          omega
        exact_mod_cast this
      have hblge : M + B + 1 ≤ bitLen v.toNat := by
        by_contra hb
        push_neg at hb
        have : v.toNat < 2 ^ (M + B) := by
          have hle : bitLen v.toNat ≤ M + B := by omega
          exact lt_of_lt_of_le (lt_two_pow_bitLen hvN)
            (Nat.pow_le_pow_right (by norm_num) hle)
        omega
      have hkB : B ≤ k := by omega
      have hk1 : 1 ≤ k := by omega
      have hsbM := hsbge hk1
      -- index ≥ (B+1)·2^M : contradiction with hacc
      have : ((B : Int) + 1) * 2 ^ M ≤ (k : Int) * 2 ^ M + (sbN : Int) := by
        have h1 : ((B : Int)) * 2 ^ M ≤ (k : Int) * 2 ^ M := by
          apply mul_le_mul_of_nonneg_right _ (by positivity)
          exact_mod_cast hkB
        have h2 : ((2:Int)) ^ M ≤ (sbN : Int) := by
          have hcast : ((2:Int)) ^ M = (((2 ^ M : Nat)) : Int) := by push_cast; ring
          rw [hcast]
          exact_mod_cast hsbM
        calc ((B : Int) + 1) * 2 ^ M = (B : Int) * 2 ^ M + 2 ^ M := by ring
          _ ≤ (k : Int) * 2 ^ M + (sbN : Int) := by omega
      omega
    · -- v ≤ 2^(M+B) - 1 → accepted
      intro hle
      have hvles : v.toNat < 2 ^ (M + B) := by
        have : (v.toNat : Int) < 2 ^ (M + B) := by
          rw [← hvtoN]
          omega
        have hcast : ((2:Int)) ^ (M + B) = (((2 ^ (M + B) : Nat)) : Int) := by push_cast; ring
        rw [hcast] at this
        exact_mod_cast this
      have hbl : bitLen v.toNat ≤ M + B := (bitLen_le_iff hvN).2 hvles
      have hkB : k ≤ B - 1 := by omega
      have hk2 : (k : Int) ≤ (B : Int) - 1 := by
        have : (k : Int) ≤ ((B - 1 : Nat) : Int) := by exact_mod_cast hkB
        omega
      have hsb2 : (sbN : Int) < 2 * 2 ^ M := by
        have hcast : ((2:Int)) * 2 ^ M = (((2 ^ (M + 1) : Nat)) : Int) := by push_cast; ring
        rw [hcast]
        exact_mod_cast hsblt
      have hp : (0:Int) < 2 ^ M := by positivity
      calc (k : Int) * 2 ^ M + (sbN : Int) < (k : Int) * 2 ^ M + 2 * 2 ^ M := by omega
        _ = ((k : Int) + 2) * 2 ^ M := by ring
        _ ≤ ((B : Int) + 1) * 2 ^ M := by
          apply mul_le_mul_of_nonneg_right _ (by positivity)
          omega

theorem counts_index_for_neg_reject {h : hdr_histogram} (hg : WFGeom h) {v : Int}
    (hneg : v < 0) (h64 : -(2 ^ 63) ≤ v)
    (hbc : h.bucket_count + h.sub_bucket_half_count_magnitude ≤ 61) :
    h.counts_len ≤ counts_index_for h v := by
  have hmaskbits := int64_bits_mask hg
  obtain ⟨hm1, hm20, hhalf, hcount, hmask, hbc1, hlen⟩ := hg
  set M := h.sub_bucket_half_count_magnitude.toNat with hM
  have hM1 : 1 ≤ M := by omega
  have hM20 : M ≤ 20 := by omega
  have hshcm : h.sub_bucket_half_count_magnitude = (M : Int) := by
    rw [hM]
    exact (Int.toNat_of_nonneg (by omega)).symm
  have hMB : h.bucket_count ≤ 61 - (M : Int) := by
    rw [hshcm] at hbc
    omega
  -- the 64-bit pattern of a negative value has its top bit set
  have hvbits : int64_bits v = (v + 2 ^ 64).toNat := int64_bits_of_neg hneg (by omega)
  have hp63 : ((2:Int) ^ 63 : Int) ≤ v + 2 ^ 64 := by omega
  have hp64 : v + 2 ^ 64 < 2 ^ 64 := by omega
  have hlo : 2 ^ 63 ≤ (v + 2 ^ 64).toNat := by
    have hc : ((2:Int) ^ 63) = (((2 ^ 63 : Nat)) : Int) := by norm_cast
    rw [hc] at hp63
    omega
  have hhi : (v + 2 ^ 64).toNat < 2 ^ 64 := by
    have hc : ((2:Int) ^ 64) = (((2 ^ 64 : Nat)) : Int) := by norm_cast
    rw [hc] at hp64
    omega
  have hmaskN : (2:Nat) ^ (M + 1) - 1 < 2 ^ 64 := by
    have : (2:Nat) ^ (M + 1) ≤ 2 ^ 21 := Nat.pow_le_pow_right (by norm_num) (by omega)
    have h21 : (2:Nat) ^ 21 < 2 ^ 64 := by norm_num
    omega
  have hw64 : (v + 2 ^ 64).toNat ||| (2 ^ (M + 1) - 1) < 2 ^ 64 := lor_lt_two_pow hhi hmaskN
  have hwge : 2 ^ 63 ≤ (v + 2 ^ 64).toNat ||| (2 ^ (M + 1) - 1) :=
    le_trans hlo (le_lor_left _ _)
  have hwlen : bitLen ((v + 2 ^ 64).toNat ||| (2 ^ (M + 1) - 1)) = 64 :=
    bitLen_eq (by norm_num) hwge hw64 hw64
  have hgbi : get_bucket_index h v = ((63 - M : Nat) : Int) := by
    unfold get_bucket_index lzcnt64
    rw [hvbits, hmaskbits, hwlen, hshcm]
    have : (63 - M : Nat) = 63 - M := rfl
    push_cast [Nat.cast_sub (by omega : M ≤ 63)]
    ring
  -- the sub-bucket index of a negative value lies in [-2^M, -1]
  have hpowpos : (0:Int) < 2 ^ (63 - M) := by positivity
  have hsbval : get_sub_bucket_index v ((63 - M : Nat) : Int) = v / 2 ^ (63 - M) := by
    unfold get_sub_bucket_index shiftRA64
    rw [Int.toNat_natCast, Int.fdiv_eq_ediv _ (by positivity)]
  have hsbge : -(2 ^ M) ≤ v / 2 ^ ((63 - M : Nat)) := by
    rw [Int.le_ediv_iff_mul_le hpowpos]
    calc -(2 ^ M) * 2 ^ (63 - M) = -(2 ^ M * 2 ^ (63 - M)) := by ring
      _ = -(2 ^ 63) := by
        rw [← pow_add, show M + (63 - M) = 63 from by omega]
      _ ≤ v := h64
  have hsblt : v / 2 ^ ((63 - M : Nat)) < 0 := Int.ediv_neg' hneg hpowpos
  unfold counts_index_for
  rw [hgbi]
  dsimp only
  rw [hsbval, counts_index_eval ⟨hm1, hm20, hhalf, hcount, hmask, hbc1, hlen⟩]
  rw [hlen, hhalf]
  have hcast : (((63 - M : Nat)) : Int) = 63 - (M : Int) := by
    push_cast [Nat.cast_sub (by omega : M ≤ 63)]
    ring
  rw [hcast]
  set sb := v / 2 ^ (63 - M) with hsbdef
  set P := (2:Int) ^ M with hP
  have hexp : (63 - (M:Int) + 1) * P = (61 - (M:Int) + 1) * P + 2 * P := by ring
  have h2 : (h.bucket_count + 1) * P ≤ (61 - (M:Int) + 1) * P :=
    mul_le_mul_of_nonneg_right (by omega) (by positivity)
  rw [hexp]
  omega

theorem option_eq_some_getD {α : Type _} (o : Option α) (d : α) (h : o.isSome = true) :
    o = some (o.getD d) := by
  cases o with
  | none => exact absurd h (by simp)
  | some a => rfl

theorem hdrh_alloc_max_recordable {H sf : Int} {h : hdr_histogram}
    (halloc : hdrh_alloc H sf = some h) (hH : H < 2 ^ 63) :
    H ≤ max_recordable h := by
  obtain ⟨⟨hg, -, -, -⟩, -, hhv, hbceq⟩ := hdrh_alloc_spec halloc
  obtain ⟨hm1, hm20, hhalf, hcount, hmask, hbc1, hlen⟩ := hg
  set M := h.sub_bucket_half_count_magnitude.toNat with hM
  have hM1 : 1 ≤ M := by omega
  have hshcm : h.sub_bucket_half_count_magnitude = (M : Int) := by
    rw [hM]
    exact (Int.toNat_of_nonneg (by omega)).symm
  set B := h.bucket_count.toNat with hB
  have hB1 : 1 ≤ B := by omega
  have hbcB : h.bucket_count = (B : Int) := by
    rw [hB]
    exact (Int.toNat_of_nonneg (by omega)).symm
  have htpos : (0:Int) < h.sub_bucket_count - 1 := by
    rw [hcount, hhalf]
    have : (1:Int) ≤ 2 ^ M := one_le_pow₀ (by norm_num)
    omega
  have hcov := buckets_needed_covers 64 H (h.sub_bucket_count - 1) 1 htpos
    (by
      have h64 : (2:Int) ^ 63 ≤ 1 * 2 ^ 64 := by norm_num
      have := mul_le_mul_of_nonneg_right (by omega : (1:Int) ≤ h.sub_bucket_count - 1)
        (by positivity : (0:Int) ≤ 2 ^ 64)
      omega)
  rw [← hbceq] at hcov
  have hexp : (h.bucket_count - 1).toNat = B - 1 := by omega
  rw [hexp] at hcov
  unfold max_recordable
  rw [hshcm, hbcB]
  have htn : ((M : Int) + (B : Int)).toNat = M + B := by omega
  rw [htn]
  set C := (2:Int) ^ (B - 1) with hC
  have hC1 : (1:Int) ≤ C := one_le_pow₀ (by norm_num)
  have hAC : (2:Int) ^ M * C = 2 ^ (M + (B - 1)) := by
    rw [hC, ← pow_add]
  have hMB : M + (B - 1) + 1 = M + B := by omega
  have h2AC : (2:Int) * (2 ^ M * C) = 2 ^ (M + B) := by
    rw [hAC, ← hMB, pow_succ]
    ring
  have hcnt : (h.sub_bucket_count - 1) * C = 2 * (2 ^ M * C) - C := by
    rw [hcount, hhalf]
    ring
  rw [hcnt, h2AC] at hcov
  omega

theorem hdrh_record_value_updates (h : hdr_histogram) (v : Int) :
    ((hdrh_record_value h v).1 = true →
      (hdrh_record_value h v).2.total_count = h.total_count + 1 ∧
      (hdrh_record_value h v).2.counts =
        h.counts.set (counts_index_for h v).toNat
          (h.counts.getD (counts_index_for h v).toNat 0 + 1)) ∧
    ((hdrh_record_value h v).1 = false → (hdrh_record_value h v).2 = h) := by
  unfold hdrh_record_value
  dsimp only
  split
  · constructor
    · intro hcontra
      exact absurd hcontra (by simp)
    · intro _
      rfl
  · constructor
    · intro _
      exact ⟨rfl, rfl⟩
    · intro hcontra
      exact absurd hcontra (by simp)

/-- Claim C1, amended.  For a histogram allocated by `hdrh_alloc` (with any
recorded state `cs`, `tc`): a non-negative value is stored exactly when it
is at most `max_recordable` — `2^(sub_bucket_half_count_magnitude +
bucket_count) - 1`, a bound at least `highest_trackable_value` but
generally larger, so some values above the configured range are still
accepted; storing increments the indexed count and `total_count` by one,
rejection leaves the state unchanged; negative values are rejected
whenever `bucket_count + sub_bucket_half_count_magnitude ≤ 61` (histograms
covering values beyond `2^61` map some very negative inputs to valid
indices). -/
theorem C1_record_value_range (H sf : Int) (h : hdr_histogram)
    (halloc : hdrh_alloc H sf = some h) (hH : H < 2 ^ 63) (cs : List Int) (tc : Int) (v : Int) :
    (0 ≤ v → v < 2 ^ 63 →
      (((hdrh_record_value { h with counts := cs, total_count := tc } v).1 = true) ↔
        v ≤ max_recordable h)) ∧
    H ≤ max_recordable h ∧
    (v < 0 → -(2 ^ 63) ≤ v →
      h.bucket_count + h.sub_bucket_half_count_magnitude ≤ 61 →
      (hdrh_record_value { h with counts := cs, total_count := tc } v).1 = false) ∧
    ((hdrh_record_value { h with counts := cs, total_count := tc } v).1 = true →
      (hdrh_record_value { h with counts := cs, total_count := tc } v).2.total_count = tc + 1 ∧
      (hdrh_record_value { h with counts := cs, total_count := tc } v).2.counts =
        cs.set (counts_index_for h v).toNat (cs.getD (counts_index_for h v).toNat 0 + 1)) ∧
    ((hdrh_record_value { h with counts := cs, total_count := tc } v).1 = false →
      (hdrh_record_value { h with counts := cs, total_count := tc } v).2 =
        { h with counts := cs, total_count := tc }) := by
  have hg : WFGeom h := (hdrh_alloc_spec halloc).1.1
  have hg2 : WFGeom { h with counts := cs, total_count := tc } := hg
  refine ⟨?_, hdrh_alloc_max_recordable halloc hH, ?_, ?_, ?_⟩
  · intro h0 h63
    have hiff := hdrh_record_value_fst_iff { h with counts := cs, total_count := tc } v
    have hspec := counts_index_for_nonneg_spec hg2 h0 h63
    rw [hiff]
    constructor
    · intro hci
      exact hspec.2.1 hci.2
    · intro hle
      exact ⟨hspec.1, hspec.2.2 hle⟩
  · intro hneg h64 hbc
    have hrej := counts_index_for_neg_reject hg2 hneg h64 hbc
    have hiff := hdrh_record_value_fst_iff { h with counts := cs, total_count := tc } v
    rw [← Bool.not_eq_true, hiff]
    rintro ⟨-, hlt⟩
    omega
  · exact (hdrh_record_value_updates { h with counts := cs, total_count := tc } v).1
  · exact (hdrh_record_value_updates { h with counts := cs, total_count := tc } v).2

theorem C1_record_value_range_witness :
    ((hdrh_record_value { histEx2000 with counts := histEx2000.counts, total_count := 0 } 5).1
        = true) ↔ (5:Int) ≤ max_recordable histEx2000 :=
  (C1_record_value_range 2000 3 histEx2000
    (option_eq_some_getD _ emptyHist (by decide)) (by decide)
    histEx2000.counts 0 5).1 (by decide) (by decide)

/-- Claim C1 as stated is false: `hdrh_alloc(2000, 3)` accepts the value
2047, which exceeds `highest_trackable_value = 2000`. -/
theorem C1_counterexample :
    hdrh_alloc 2000 3 = some histEx2000 ∧
      histEx2000.highest_trackable_value = 2000 ∧
      (hdrh_record_value histEx2000 2047).1 = true ∧ ¬ ((2047:Int) ≤ 2000) := by
  exact ⟨option_eq_some_getD _ emptyHist (by decide), by decide, by decide, by decide⟩

/-! ## Claim C2: total count consistency -/

theorem sum_set_add (L : List Int) (n : Nat) (hn : n < L.length) (a : Int) :
    (L.set n (L.getD n 0 + a)).sum = L.sum + a := by
  rw [List.sum_set, if_pos hn, List.getD_eq_getElem L 0 hn]
  conv_rhs => rw [← List.take_append_drop n L]
  rw [List.sum_append, List.drop_eq_getElem_cons hn, List.sum_cons]
  ring

theorem hdrh_record_value_step (h : hdr_histogram) (v : Int) (hok : StateOK h) :
    StateOK (hdrh_record_value h v).2 ∧
    (hdrh_record_value h v).2.counts_len = h.counts_len ∧
    (hdrh_record_value h v).2.total_count =
      h.total_count + (if (hdrh_record_value h v).1 then 1 else 0) ∧
    (hdrh_record_value h v).2.counts.sum =
      h.counts.sum + (if (hdrh_record_value h v).1 then 1 else 0) := by
  obtain ⟨hlen, hpos⟩ := hok
  unfold hdrh_record_value
  dsimp only
  split
  · exact ⟨⟨hlen, hpos⟩, rfl, by simp, by simp⟩
  · next hc =>
    push_neg at hc
    obtain ⟨hge, hlt⟩ := hc
    have hidx : (counts_index_for h v).toNat < h.counts.length := by
      rw [hlen]
      omega
    refine ⟨⟨?_, ?_⟩, rfl, by simp, ?_⟩
    · simpa using hlen
    · intro c hc
      rcases List.mem_or_eq_of_mem_set hc with hmem | heq
      · exact hpos c hmem
      · have hmem : h.counts.getD (counts_index_for h v).toNat 0 ∈ h.counts := by
          rw [List.getD_eq_getElem h.counts 0 hidx]
          exact List.getElem_mem hidx
        have := hpos _ hmem
        omega
    · simp only [if_pos]
      exact sum_set_add h.counts _ hidx 1

theorem record_missing_loop_step :
    ∀ (fuel : Nat) (h : hdr_histogram) (ei mv : Int), StateOK h →
      StateOK (record_missing_loop fuel h ei mv).2 ∧
      (record_missing_loop fuel h ei mv).2.counts_len = h.counts_len ∧
      (record_missing_loop fuel h ei mv).2.total_count =
        h.total_count + (missingStored fuel h ei mv : Int) ∧
      (record_missing_loop fuel h ei mv).2.counts.sum =
        h.counts.sum + (missingStored fuel h ei mv : Int) := by
  intro fuel
  induction fuel with
  | zero =>
    intro h ei mv hok
    exact ⟨hok, rfl, by simp [record_missing_loop, missingStored], by
      simp [record_missing_loop, missingStored]⟩
  | succ fuel ih =>
    intro h ei mv hok
    rw [record_missing_loop, missingStored]
    split
    · have hstep := hdrh_record_value_step h mv hok
      rcases hrv : hdrh_record_value h mv with ⟨b, h1⟩
      rw [hrv] at hstep
      cases b with
      | false =>
        simp only
        refine ⟨hstep.1, hstep.2.1, ?_, ?_⟩
        · have := hstep.2.2.1
          simp at this
          simp [this]
        · have := hstep.2.2.2
          simp at this
          simp [this]
      | true =>
        simp only
        have hrec := ih h1 ei (mv - ei) hstep.1
        refine ⟨hrec.1, by rw [hrec.2.1, hstep.2.1], ?_, ?_⟩
        · rw [hrec.2.2.1]
          have := hstep.2.2.1
          simp at this
          rw [this]
          push_cast
          ring
        · rw [hrec.2.2.2]
          have := hstep.2.2.2
          simp at this
          rw [this]
          push_cast
          ring
    · exact ⟨hok, rfl, by simp, by simp⟩

theorem applyRecordOp_step (h : hdr_histogram) (op : RecordOp) (hok : StateOK h) :
    StateOK (applyRecordOp h op) ∧
    (applyRecordOp h op).counts_len = h.counts_len ∧
    (applyRecordOp h op).total_count = h.total_count + (opStored h op : Int) ∧
    (applyRecordOp h op).counts.sum = h.counts.sum + (opStored h op : Int) := by
  cases op with
  | plain v =>
    have hstep := hdrh_record_value_step h v hok
    unfold applyRecordOp opStored
    refine ⟨hstep.1, hstep.2.1, ?_, ?_⟩
    · rw [hstep.2.2.1]
      split <;> simp_all
    · rw [hstep.2.2.2]
      split <;> simp_all
  | corrected v ei =>
    have hstep := hdrh_record_value_step h v hok
    unfold applyRecordOp opStored hdrh_record_corrected_value
    rcases hrv : hdrh_record_value h v with ⟨b, h1⟩
    rw [hrv] at hstep
    simp only [hrv]
    have h1tot := hstep.2.2.1
    have h1sum := hstep.2.2.2
    cases b with
    | false =>
      dsimp only
      simp only [Bool.false_eq_true, if_false] at h1tot h1sum
      exact ⟨hstep.1, hstep.2.1, by simpa using h1tot, by simpa using h1sum⟩
    | true =>
      dsimp only
      simp only [if_true] at h1tot h1sum
      split
      · exact ⟨hstep.1, hstep.2.1, by simpa using h1tot, by simpa using h1sum⟩
      · have hrec := record_missing_loop_step (v - ei).toNat.succ h1 ei (v - ei) hstep.1
        refine ⟨hrec.1, by rw [hrec.2.1, hstep.2.1], ?_, ?_⟩
        · rw [hrec.2.2.1, h1tot]
          push_cast
          ring
        · rw [hrec.2.2.2, h1sum]
          push_cast
          ring

theorem applyRecordOps_state :
    ∀ (ops : List RecordOp) (h : hdr_histogram), StateOK h →
      StateOK (applyRecordOps h ops) ∧
      (applyRecordOps h ops).total_count = h.total_count + (opsStored h ops : Int) ∧
      (applyRecordOps h ops).counts.sum = h.counts.sum + (opsStored h ops : Int) := by
  intro ops
  induction ops with
  | nil => intro h hok; exact ⟨hok, by simp [applyRecordOps, opsStored], by
      simp [applyRecordOps, opsStored]⟩
  | cons op rest ih =>
    intro h hok
    have hstep := applyRecordOp_step h op hok
    have hrec := ih (applyRecordOp h op) hstep.1
    have happ : applyRecordOps h (op :: rest) = applyRecordOps (applyRecordOp h op) rest := rfl
    rw [happ, opsStored]
    refine ⟨hrec.1, ?_, ?_⟩
    · rw [hrec.2.1, hstep.2.2.1]
      push_cast
      ring
    · rw [hrec.2.2, hstep.2.2.2]
      push_cast
      ring

/-- Claim C2: starting from a freshly allocated histogram, after any
sequence of plain and corrected recording calls that stored `n` individual
samples, `total_count = n` and the counts sum to `n`. -/
theorem C2_total_count_consistency (H sf : Int) (h0 : hdr_histogram)
    (halloc : hdrh_alloc H sf = some h0) (ops : List RecordOp) :
    (applyRecordOps h0 ops).total_count = (opsStored h0 ops : Int) ∧
    sumCounts (applyRecordOps h0 ops) = (opsStored h0 ops : Int) := by
  obtain ⟨⟨hg, hlen, hpos, hsum⟩, htot, -, -⟩ := hdrh_alloc_spec halloc
  have hok : StateOK h0 := ⟨hlen, hpos⟩
  have := applyRecordOps_state ops h0 hok
  unfold sumCounts at hsum ⊢
  constructor
  · rw [this.2.1, htot]
    ring
  · rw [this.2.2, ← hsum, htot]
    ring

theorem C2_total_count_consistency_witness :
    (applyRecordOps histEx2000 [RecordOp.plain 1000, RecordOp.corrected 1500 400]).total_count =
      (opsStored histEx2000 [RecordOp.plain 1000, RecordOp.corrected 1500 400] : Int) ∧
    sumCounts (applyRecordOps histEx2000 [RecordOp.plain 1000, RecordOp.corrected 1500 400]) =
      (opsStored histEx2000 [RecordOp.plain 1000, RecordOp.corrected 1500 400] : Int) :=
  C2_total_count_consistency 2000 3 histEx2000 (option_eq_some_getD _ emptyHist (by decide)) _

/-! ## Claim C4: the equivalence-range round trip -/

theorem one_shl_int32_eq {k : Int} (h0 : 0 ≤ k) (h30 : k ≤ 30) :
    one_shl_int32 k = ((2 ^ k.toNat : Nat) : Int) := by
  unfold one_shl_int32 int64_bits toSigned32
  have hmod : k % (2:Int) ^ 64 = k := Int.emod_eq_of_lt h0 (by omega)
  rw [hmod]
  have htn : k.toNat % 32 = k.toNat := Nat.mod_eq_of_lt (by omega)
  rw [htn]
  have hle30 : (2:Nat) ^ k.toNat ≤ 2 ^ 30 := Nat.pow_le_pow_right (by norm_num) (by omega)
  have hlt32 : (2:Nat) ^ k.toNat % 2 ^ 32 = 2 ^ k.toNat := Nat.mod_eq_of_lt (by
    calc (2:Nat) ^ k.toNat ≤ 2 ^ 30 := hle30
      _ < 2 ^ 32 := by norm_num)
  rw [hlt32, if_pos (by
    calc (2:Nat) ^ k.toNat ≤ 2 ^ 30 := hle30
      _ < 2 ^ 31 := by norm_num)]

theorem lowest_highest_eval {h : hdr_histogram} (hg : WFGeom h) {v : Int}
    (h0 : 0 ≤ v) (h63 : v < 2 ^ 63) (hk30 : bucketK h v ≤ 30) :
    lowest_equivalent_value h v =
      ((v.toNat / 2 ^ bucketK h v * 2 ^ bucketK h v : Nat) : Int) ∧
    highest_equivalent_value h v =
      ((v.toNat / 2 ^ bucketK h v * 2 ^ bucketK h v + (2 ^ bucketK h v - 1) : Nat) : Int) := by
  have hgbi := get_bucket_index_nonneg hg h0 h63
  obtain ⟨hm1, hm20, hhalf, hcount, hmask, hbc1, hlen⟩ := hg
  set M := h.sub_bucket_half_count_magnitude.toNat with hM
  have hM1 : 1 ≤ M := by omega
  set K := bucketK h v with hK
  have hKdef : K = max (bitLen v.toNat) (M + 1) - (M + 1) := rfl
  have hgbi2 : get_bucket_index h v = (K : Int) := by rw [hgbi, hKdef]
  have hvN : v.toNat < 2 ^ 64 := by
    have h1 : v < (2:Int) ^ 64 := lt_trans h63 (by norm_num)
    exact (Int.toNat_lt h0).2 (by exact_mod_cast h1)
  have hmax : M + 1 ≤ max (bitLen v.toNat) (M + 1) := le_max_right _ _
  have hmaxk : max (bitLen v.toNat) (M + 1) = M + 1 + K := by omega
  have hvlt : v.toNat < 2 ^ (M + 1 + K) := by
    calc v.toNat < 2 ^ bitLen v.toNat := lt_two_pow_bitLen hvN
      _ ≤ 2 ^ (M + 1 + K) := by
        apply Nat.pow_le_pow_right (by norm_num)
        omega
  have hsblt : v.toNat / 2 ^ K < 2 ^ (M + 1) := by
    rw [Nat.div_lt_iff_lt_mul (Nat.pos_pow_of_pos K (by norm_num)), ← pow_add]
    exact hvlt
  have hsbval := get_sub_bucket_index_natCast h0 K
  have hlow : lowest_equivalent_value h v =
      ((v.toNat / 2 ^ K * 2 ^ K : Nat) : Int) := by
    unfold lowest_equivalent_value
    rw [hgbi2]
    dsimp only
    rw [hsbval]
    unfold value_from_index shiftL64
    rw [Int.toNat_natCast]
    push_cast
    ring
  have hbranch : ¬ (((v.toNat / 2 ^ K : Nat) : Int) ≥ h.sub_bucket_count) := by
    push_neg
    rw [hcount, hhalf]
    have hc : ((2:Int)) * 2 ^ M = (((2 ^ (M + 1) : Nat)) : Int) := by push_cast; ring
    rw [hc]
    exact_mod_cast hsblt
  have hsize : size_of_equivalent_value_range h v = ((2 ^ K : Nat) : Int) := by
    unfold size_of_equivalent_value_range
    rw [hgbi2]
    dsimp only
    rw [hsbval]
    rw [if_neg hbranch]
    rw [one_shl_int32_eq (by positivity) (by exact_mod_cast hk30), Int.toNat_natCast]
  refine ⟨hlow, ?_⟩
  unfold highest_equivalent_value next_non_equivalent_value
  rw [hlow, hsize]
  have hpos : (1:Nat) ≤ 2 ^ K := Nat.one_le_two_pow
  push_cast [hpos]
  ring

/-- Claim C4, amended.  For every histogram from `hdrh_alloc` and every
value in the trackable range that stays below
`2^(sub_bucket_half_count_magnitude + 31)` — so its bucket index is at
most 30 and the 32-bit `1 << bucket_index` of
`size_of_equivalent_value_range` does not overflow —
`lowest_equivalent ≤ v ≤ highest_equivalent` and the highest equivalent
value lies in the same equivalence range as `v`.  Beyond that bound
(reachable once `highest_trackable_value` is large enough, bucket index
31 and up) the shift wraps negative and `highest_equivalent(v) < v`. -/
theorem C4_equivalence_roundtrip (H sf : Int) (h : hdr_histogram)
    (halloc : hdrh_alloc H sf = some h) (v : Int) (h0 : 0 ≤ v)
    (hhi : v ≤ h.highest_trackable_value) (h63 : v < 2 ^ 63)
    (hb31 : v < 2 ^ (h.sub_bucket_half_count_magnitude.toNat + 31)) :
    lowest_equivalent_value h v ≤ v ∧ v ≤ highest_equivalent_value h v ∧
      lowest_equivalent_value h (highest_equivalent_value h v) =
        lowest_equivalent_value h v := by
  have hg : WFGeom h := (hdrh_alloc_spec halloc).1.1
  set M := h.sub_bucket_half_count_magnitude.toNat with hM
  have hm1 : 1 ≤ h.sub_bucket_half_count_magnitude := hg.1
  have hm20 : h.sub_bucket_half_count_magnitude ≤ 20 := hg.2.1
  have hM1 : 1 ≤ M := by omega
  have hM20 : M ≤ 20 := by omega
  set K := bucketK h v with hK
  have hKdef : K = max (bitLen v.toNat) (M + 1) - (M + 1) := rfl
  have hvN : v.toNat < 2 ^ 64 := by
    have h1 : v < (2:Int) ^ 64 := lt_trans h63 (by norm_num)
    exact (Int.toNat_lt h0).2 (by exact_mod_cast h1)
  have hbl63 : bitLen v.toNat ≤ 63 := by
    apply (bitLen_le_iff hvN).2
    have h1 : (v.toNat : Int) < 2 ^ 63 := by rw [Int.toNat_of_nonneg h0]; exact h63
    have hc : ((2:Int)) ^ 63 = (((2 ^ 63 : Nat)) : Int) := by norm_cast
    rw [hc] at h1
    exact_mod_cast h1
  have hmax : M + 1 ≤ max (bitLen v.toNat) (M + 1) := le_max_right _ _
  have hmaxk : max (bitLen v.toNat) (M + 1) = M + 1 + K := by omega
  have hMK63 : M + 1 + K ≤ 63 := by
    have : max (bitLen v.toNat) (M + 1) ≤ 63 := by
      apply max_le hbl63
      omega
    omega
  have hblv31 : bitLen v.toNat ≤ M + 31 := by
    apply (bitLen_le_iff hvN).2
    have h1 : (v.toNat : Int) < ((2 ^ (M + 31) : Nat) : Int) := by
      rw [Int.toNat_of_nonneg h0]
      push_cast
      exact hb31
    exact_mod_cast h1
  have hmax31 : max (bitLen v.toNat) (M + 1) ≤ M + 31 := max_le hblv31 (by omega)
  have hK30 : K ≤ 30 := by omega
  have heval := lowest_highest_eval hg h0 h63 hK30
  rw [← hK] at heval
  set q := v.toNat / 2 ^ K with hq
  have hdm := Nat.div_add_mod v.toNat (2 ^ K)
  have hmlt : v.toNat % 2 ^ K < 2 ^ K := Nat.mod_lt _ (Nat.pos_pow_of_pos K (by norm_num))
  have hvq : v = ((2 ^ K * q + v.toNat % 2 ^ K : Nat) : Int) := by
    rw [hdm, Int.toNat_of_nonneg h0]
  refine ⟨?_, ?_, ?_⟩
  · rw [heval.1, hvq]
    have hcm : q * 2 ^ K = 2 ^ K * q := by ring
    have : q * 2 ^ K ≤ 2 ^ K * q + v.toNat % 2 ^ K := by omega
    exact_mod_cast this
  · rw [heval.2, hvq]
    have hple : (1:Nat) ≤ 2 ^ K := Nat.one_le_two_pow
    have hcm : 2 ^ K * q = q * 2 ^ K := by ring
    have : 2 ^ K * q + v.toNat % 2 ^ K ≤ q * 2 ^ K + (2 ^ K - 1) := by omega
    exact_mod_cast this
  · -- the highest equivalent value has the same bucket exponent and quotient
    set hN := q * 2 ^ K + (2 ^ K - 1) with hhN
    have hhval : highest_equivalent_value h v = ((hN : Nat) : Int) := heval.2
    have hhnn : (0:Int) ≤ ((hN : Nat) : Int) := by positivity
    have hNlt : hN < 2 ^ (M + 1 + K) := by
      have hq2 : q < 2 ^ (M + 1) := by
        rw [hq, Nat.div_lt_iff_lt_mul (Nat.pos_pow_of_pos K (by norm_num)), ← pow_add]
        calc v.toNat < 2 ^ bitLen v.toNat := lt_two_pow_bitLen hvN
          _ ≤ 2 ^ (M + 1 + K) := Nat.pow_le_pow_right (by norm_num) (by omega)
      have h1 : q * 2 ^ K ≤ (2 ^ (M + 1) - 1) * 2 ^ K := by
        apply Nat.mul_le_mul_right
        omega
      have h2 : (2 ^ (M + 1) - 1) * 2 ^ K + 2 ^ K = 2 ^ (M + 1 + K) := by
        have he : (2:Nat) ^ (M + 1) * 2 ^ K = 2 ^ (M + 1 + K) := by rw [← pow_add]
        have hsub : (2 ^ (M + 1) - 1) * 2 ^ K = 2 ^ (M + 1) * 2 ^ K - 2 ^ K := by
          rw [Nat.sub_mul, one_mul]
        have h3 : (2:Nat) ^ K ≤ 2 ^ (M + 1) * 2 ^ K :=
          Nat.le_mul_of_pos_left _ (Nat.pos_pow_of_pos _ (by norm_num))
        rw [hsub, he]
        rw [he] at h3
        omega
      have hple : (1:Nat) ≤ 2 ^ K := Nat.one_le_two_pow
      omega
    have hN63 : ((hN : Nat) : Int) < 2 ^ 63 := by
      have h1 : hN < 2 ^ 63 :=
        lt_of_lt_of_le hNlt (Nat.pow_le_pow_right (by norm_num) hMK63)
      have hc : ((2:Int)) ^ 63 = (((2 ^ 63 : Nat)) : Int) := by norm_cast
      rw [hc]
      exact_mod_cast h1
    have hNtoNat : ((hN : Nat) : Int).toNat = hN := Int.toNat_natCast hN
    -- bucket exponent of hN
    have hKN : bucketK h ((hN : Nat) : Int) = K := by
      unfold bucketK
      rw [hNtoNat, ← hM]
      rcases Nat.eq_zero_or_pos K with hK0 | hKpos
      · -- K = 0 : hN = v.toNat
        have : hN = v.toNat := by
          rw [hhN, hK0]
          simp [hq, hK0]
        rw [this]
        omega
      · -- K ≥ 1 : 2^(M+K) ≤ hN < 2^(M+1+K)
        have hblv : bitLen v.toNat = M + 1 + K := by omega
        have hvge : 2 ^ (M + K) ≤ v.toNat := by
          have hne : v.toNat ≠ 0 := by
            intro hzero
            rw [hzero] at hblv
            have : bitLen 0 = 0 := by decide
            omega
          have := two_pow_bitLen_pred_le hvN hne
          rw [hblv] at this
          have he : M + 1 + K - 1 = M + K := by omega
          rwa [he] at this
        have hqge : 2 ^ M ≤ q := by
          rw [hq]
          have := Nat.div_le_div_right (c := 2 ^ K) hvge
          rwa [Nat.pow_div (by omega) (by norm_num), show M + K - K = M from by omega] at this
        have hNge : 2 ^ (M + K) ≤ hN := by
          calc (2:Nat) ^ (M + K) = 2 ^ M * 2 ^ K := by rw [pow_add]
            _ ≤ q * 2 ^ K := Nat.mul_le_mul_right _ hqge
            _ ≤ hN := by omega
        have hN64 : hN < 2 ^ 64 := by
          exact lt_of_lt_of_le hNlt (Nat.pow_le_pow_right (by norm_num) (by omega))
        have hblN : bitLen hN = M + 1 + K := by
          apply bitLen_eq (by omega) _ hNlt hN64
          have he : M + 1 + K - 1 = M + K := by omega
          rwa [he]
        rw [hblN]
        omega
    have heval2 := lowest_highest_eval ⟨hm1, hg.2.1, hg.2.2.1, hg.2.2.2.1, hg.2.2.2.2.1,
      hg.2.2.2.2.2.1, hg.2.2.2.2.2.2⟩ hhnn hN63 (by rw [hKN]; exact hK30)
    rw [hhval, heval2.1, heval.1, hKN, hNtoNat]
    have hdiv : hN / 2 ^ K = q := by
      rw [hhN, show q * 2 ^ K + (2 ^ K - 1) = 2 ^ K * q + (2 ^ K - 1) from by ring,
        Nat.mul_add_div (Nat.pos_pow_of_pos K (by norm_num)),
        Nat.div_eq_of_lt (by omega)]
      omega
    rw [hdiv]

theorem C4_equivalence_roundtrip_witness :
    lowest_equivalent_value histEx4000 4000 ≤ 4000 ∧
      (4000:Int) ≤ highest_equivalent_value histEx4000 4000 ∧
      lowest_equivalent_value histEx4000 (highest_equivalent_value histEx4000 4000) =
        lowest_equivalent_value histEx4000 4000 :=
  C4_equivalence_roundtrip 4000 3 histEx4000 (option_eq_some_getD _ emptyHist (by decide))
    4000 (by decide) (by decide) (by decide) (by decide)

/-- Claim C4 as stated is false of the real arithmetic: the C computes the
equivalence-range size as `1 << bucket_index` with a 32-bit `int` `1`, so
on `hdrh_alloc(2^45, 3)` at `v = 2^41` — inside the trackable range, with
bucket index 31 — the size wraps to `-2^31` and
`highest_equivalent_value(v) < v`. -/
theorem C4_counterexample :
    hdrh_alloc (2 ^ 45) 3 = some histEx2p45 ∧
      (0:Int) ≤ 2 ^ 41 ∧ (2:Int) ^ 41 ≤ histEx2p45.highest_trackable_value ∧
      get_bucket_index histEx2p45 (2 ^ 41) = 31 ∧
      size_of_equivalent_value_range histEx2p45 (2 ^ 41) = -(2 ^ 31) ∧
      ¬ ((2:Int) ^ 41 ≤ highest_equivalent_value histEx2p45 (2 ^ 41)) :=
  ⟨option_eq_some_getD _ emptyHist (by decide), by decide, by decide, by decide,
    by decide, by decide⟩

/-! ## Claims C3 and C5: the percentile walk -/

theorem succ_div_of_mod_lt {i half : Nat} (hpos : 0 < half) (hlt : i % half + 1 < half) :
    (i + 1) / half = i / half ∧ (i + 1) % half = i % half + 1 := by
  have hdm := Nat.div_add_mod i half
  have he : i + 1 = half * (i / half) + (i % half + 1) := by omega
  constructor
  · rw [he, Nat.mul_add_div hpos, Nat.div_eq_of_lt hlt]
    omega
  · rw [he, Nat.mul_add_mod, Nat.mod_eq_of_lt hlt]


theorem succ_div_of_mod_eq {i half : Nat} (hpos : 0 < half) (heq : i % half + 1 = half) :
    (i + 1) / half = i / half + 1 ∧ (i + 1) % half = 0 := by
  have hdm := Nat.div_add_mod i half
  have he : i + 1 = half * (i / half + 1) := by
    have : half * (i / half + 1) = half * (i / half) + half := by ring
    omega
  constructor
  · rw [he, Nat.mul_div_cancel_left _ hpos]
  · rw [he, Nat.mul_mod_right]

theorem half_count_toNat {h : hdr_histogram} (hg : WFGeom h) :
    h.sub_bucket_half_count.toNat = 2 ^ h.sub_bucket_half_count_magnitude.toNat ∧
    h.sub_bucket_count.toNat = 2 * 2 ^ h.sub_bucket_half_count_magnitude.toNat ∧
    h.sub_bucket_half_count = ((2 ^ h.sub_bucket_half_count_magnitude.toNat : Nat) : Int) ∧
    h.sub_bucket_count = ((2 * 2 ^ h.sub_bucket_half_count_magnitude.toNat : Nat) : Int) := by
  obtain ⟨-, -, hhalf, hcount, -, -, -⟩ := hg
  set M := h.sub_bucket_half_count_magnitude.toNat
  have hc1 : h.sub_bucket_half_count = ((2 ^ M : Nat) : Int) := by
    rw [hhalf]
    norm_cast
  have hc2 : h.sub_bucket_count = ((2 * 2 ^ M : Nat) : Int) := by
    rw [hcount, hc1]
    norm_cast
  refine ⟨?_, ?_, hc1, hc2⟩
  · rw [hc1, Int.toNat_natCast]
  · rw [hc2, Int.toNat_natCast]

theorem slotCoords_counts_index {h : hdr_histogram} (hg : WFGeom h) (i : Nat) :
    counts_index h (slotCoords h i).1 (slotCoords h i).2 = (i : Int) := by
  have hcie := counts_index_eval hg
  obtain ⟨hht, hct, hhc, hcc⟩ := half_count_toNat hg
  set M := h.sub_bucket_half_count_magnitude.toNat
  unfold slotCoords
  rw [hht, hct]
  dsimp only
  split
  · rw [hcie]
    dsimp only
    push_cast
    ring
  · rw [hcie]
    dsimp only
    have hdm := Nat.div_add_mod i (2 ^ M)
    have hdmi : ((2 ^ M * (i / 2 ^ M) + i % 2 ^ M : Nat) : Int) = (i : Int) := by
      rw [hdm]
    push_cast at hdmi
    push_cast
    linarith

theorem slotCoords_succ {h : hdr_histogram} (hg : WFGeom h) (i : Nat) :
    (if (slotCoords h i).2 + 1 ≥ h.sub_bucket_count
      then ((slotCoords h i).1 + 1, h.sub_bucket_half_count)
      else ((slotCoords h i).1, (slotCoords h i).2 + 1)) = slotCoords h (i + 1) := by
  obtain ⟨hht, hct, hhc, hcc⟩ := half_count_toNat hg
  have hm1 : 1 ≤ h.sub_bucket_half_count_magnitude := hg.1
  set M := h.sub_bucket_half_count_magnitude.toNat with hM
  have hM1 : 1 ≤ M := by omega
  have hpos : 0 < (2:Nat) ^ M := Nat.pos_pow_of_pos M (by norm_num)
  have h2M : (2:Nat) ≤ 2 ^ M := by
    calc (2:Nat) = 2 ^ 1 := by norm_num
      _ ≤ 2 ^ M := Nat.pow_le_pow_right (by norm_num) hM1
  unfold slotCoords
  rw [hht, hct]
  by_cases hA : i + 1 < 2 * 2 ^ M
  · -- still inside bucket 0
    have hAi : i < 2 * 2 ^ M := by omega
    rw [if_pos hAi, if_pos hA]
    dsimp only
    have hbr : ¬ ((i : Int) + 1 ≥ h.sub_bucket_count) := by
      rw [hcc]
      push_neg
      exact_mod_cast hA
    rw [if_neg hbr]
    norm_cast
  · by_cases hB : i + 1 = 2 * 2 ^ M
    · -- crossing from bucket 0 into bucket 1
      have hAi : i < 2 * 2 ^ M := by omega
      rw [if_pos hAi, if_neg (by omega : ¬ (i + 1 < 2 * 2 ^ M))]
      dsimp only
      have hbr : (i : Int) + 1 ≥ h.sub_bucket_count := by
        rw [hcc]
        exact_mod_cast le_of_eq hB.symm
      rw [if_pos hbr]
      have hdiv : (i + 1) / 2 ^ M = 2 := by
        rw [hB, Nat.mul_div_cancel _ hpos]
      have hmod : (i + 1) % 2 ^ M = 0 := by
        rw [hB, Nat.mul_mod_left]
      rw [hdiv, hmod]
      simp only [Prod.mk.injEq]
      constructor
      · norm_num
      · rw [hhc]
        norm_cast
    · -- inside the upper buckets
      have hgei : ¬ (i < 2 * 2 ^ M) := by omega
      have hge1 : ¬ (i + 1 < 2 * 2 ^ M) := by omega
      rw [if_neg hgei, if_neg hge1]
      dsimp only
      have hmlt : i % 2 ^ M < 2 ^ M := Nat.mod_lt _ hpos
      by_cases hC : i % 2 ^ M + 1 < 2 ^ M
      · obtain ⟨hdiv, hmod⟩ := succ_div_of_mod_lt hpos hC
        have hbr : ¬ (((2 ^ M + i % 2 ^ M : Nat) : Int) + 1 ≥ h.sub_bucket_count) := by
          rw [hcc]
          push_neg
          have hlt2 : (2 ^ M + i % 2 ^ M + 1 : Nat) < 2 * 2 ^ M := by omega
          exact_mod_cast hlt2
        rw [if_neg hbr, hdiv, hmod]
        simp only [Prod.mk.injEq]
        constructor
        · trivial
        · push_cast
          ring
      · have hCe : i % 2 ^ M + 1 = 2 ^ M := by omega
        obtain ⟨hdiv, hmod⟩ := succ_div_of_mod_eq hpos hCe
        have hbr : ((2 ^ M + i % 2 ^ M : Nat) : Int) + 1 ≥ h.sub_bucket_count := by
          rw [hcc]
          have hle2 : (2 * 2 ^ M : Nat) ≤ 2 ^ M + i % 2 ^ M + 1 := by omega
          exact_mod_cast hle2
        rw [if_pos hbr, hdiv, hmod]
        simp only [Prod.mk.injEq]
        constructor
        · push_cast
          ring
        · rw [hhc]
          norm_cast

/-! ## The percentile walk refines `firstReach` (claims C3 and C5) -/

theorem WFGeom_record (h : hdr_histogram) (v : Int) :
    WFGeom (hdrh_record_value h v).2 ↔ WFGeom h := by
  unfold hdrh_record_value
  dsimp only
  split
  · exact Iff.rfl
  · exact Iff.rfl

theorem WFHist_record (h : hdr_histogram) (v : Int) (hw : WFHist h) :
    WFHist (hdrh_record_value h v).2 := by
  obtain ⟨hg, hlen, hnn, htot⟩ := hw
  have hstep := hdrh_record_value_step h v ⟨hlen, hnn⟩
  refine ⟨(WFGeom_record h v).mpr hg, hstep.1.1, hstep.1.2, ?_⟩
  rw [hstep.2.2.1]
  unfold sumCounts at htot ⊢
  rw [hstep.2.2.2, htot]

theorem WFHist_histEx2000 : WFHist histEx2000 :=
  (hdrh_alloc_spec (option_eq_some_getD _ emptyHist (by decide))).1

theorem WFHist_histEx2000r : WFHist histEx2000r :=
  WFHist_record histEx2000 1 WFHist_histEx2000

theorem sum_take_succ {l : List Int} {n : Nat} (hn : n < l.length) :
    (l.take (n + 1)).sum = (l.take n).sum + l.getD n 0 := by
  rw [List.take_succ, List.sum_append, List.getElem?_eq_getElem hn]
  rw [List.getD_eq_getElem l 0 hn]
  simp

theorem slotCoords_bounds {h : hdr_histogram} (hg : WFGeom h) (i : Nat) :
    0 ≤ (slotCoords h i).1 ∧ 0 ≤ (slotCoords h i).2 ∧
      (slotCoords h i).2 < h.sub_bucket_count := by
  obtain ⟨hht, hct, hhc, hcc⟩ := half_count_toNat hg
  set M := h.sub_bucket_half_count_magnitude.toNat
  have hpos : 0 < (2:Nat) ^ M := Nat.pos_pow_of_pos M (by norm_num)
  unfold slotCoords
  rw [hht, hct]
  split
  · next hlt =>
    dsimp only
    refine ⟨le_refl 0, by positivity, ?_⟩
    rw [hcc]
    exact_mod_cast hlt
  · next hge =>
    push_neg at hge
    have hdge : 2 ≤ i / 2 ^ M := by
      rw [Nat.le_div_iff_mul_le hpos]
      omega
    have hmlt : i % 2 ^ M < 2 ^ M := Nat.mod_lt _ hpos
    refine ⟨?_, by positivity, ?_⟩
    · dsimp only
      have : (2 : Int) ≤ ((i / 2 ^ M : Nat) : Int) := by exact_mod_cast hdge
      omega
    · dsimp only
      rw [hcc]
      have : (2 ^ M + i % 2 ^ M : Nat) < 2 * 2 ^ M := by omega
      exact_mod_cast this

theorem slotValue_le_succ {h : hdr_histogram} (hg : WFGeom h) (i : Nat) :
    slotValue h i ≤ slotValue h (i + 1) := by
  obtain ⟨hb0, hs0, hslt⟩ := slotCoords_bounds hg i
  obtain ⟨hht, hct, hhc, hcc⟩ := half_count_toNat hg
  set M := h.sub_bucket_half_count_magnitude.toNat
  by_cases hcarry : (slotCoords h i).2 + 1 ≥ h.sub_bucket_count
  · have hs := slotCoords_succ hg i
    rw [if_pos hcarry] at hs
    rw [slotValue, slotValue, ← hs]
    unfold value_from_index shiftL64
    dsimp only
    have ht : ((slotCoords h i).1 + 1).toNat = (slotCoords h i).1.toNat + 1 := by omega
    rw [ht, pow_succ]
    have hsb_eq : (slotCoords h i).2 = h.sub_bucket_count - 1 := by omega
    have hH2 : h.sub_bucket_count = 2 * h.sub_bucket_half_count := by
      rw [hcc, hhc]
      push_cast
      ring
    have hhalf1 : (1:Int) ≤ h.sub_bucket_half_count := by
      rw [hhc]
      exact_mod_cast Nat.one_le_two_pow
    have hp2 : (0:Int) ≤ 2 ^ (slotCoords h i).1.toNat := by positivity
    calc (slotCoords h i).2 * 2 ^ (slotCoords h i).1.toNat
        ≤ (2 * h.sub_bucket_half_count) * 2 ^ (slotCoords h i).1.toNat := by
          apply mul_le_mul_of_nonneg_right _ hp2
          omega
      _ = h.sub_bucket_half_count * (2 ^ (slotCoords h i).1.toNat * 2) := by ring
  · have hs := slotCoords_succ hg i
    rw [if_neg hcarry] at hs
    rw [slotValue, slotValue, ← hs]
    unfold value_from_index shiftL64
    dsimp only
    exact mul_le_mul_of_nonneg_right (by omega) (by positivity)

theorem slotValue_mono {h : hdr_histogram} (hg : WFGeom h) {i j : Nat} (hij : i ≤ j) :
    slotValue h i ≤ slotValue h j := by
  induction j, hij using Nat.le_induction with
  | base => exact le_refl _
  | succ n hn ih => exact le_trans ih (slotValue_le_succ hg n)

theorem hdrh_iter_next_spec {h : hdr_histogram} {iter : hdrh_iter} {pos : Nat}
    (hg : WFGeom h) (hnn : ∀ c ∈ h.counts, 0 ≤ c) (htc : h.total_count = sumCounts h)
    (hinv : IterInv h iter pos) (hhn : iter.count_to_index < h.total_count) :
    pos < h.counts.length ∧
    hdrh_iter_next iter =
      (true,
        { iter with
          bucket_index := (slotCoords h pos).1
          sub_bucket_index := (slotCoords h pos).2
          count_at_index := h.counts.getD pos 0
          count_to_index := iter.count_to_index + h.counts.getD pos 0
          value_from_index := slotValue h pos
          highest_equivalent_value := highest_equivalent_value h (slotValue h pos) }) := by
  obtain ⟨hih, hple, hcti, hzero, hone⟩ := hinv
  have hplt : pos < h.counts.length := by
    by_contra hge
    push_neg at hge
    rw [List.take_of_length_le hge] at hcti
    rw [htc] at hhn
    unfold sumCounts at hhn
    omega
  refine ⟨hplt, ?_⟩
  have hhn' : has_next iter = true := by
    unfold has_next
    rw [hih]
    exact decide_eq_true hhn
  unfold hdrh_iter_next
  rw [if_neg (by simp [hhn'])]
  dsimp only
  rw [hih]
  have hgc : get_count_at_index h (slotCoords h pos).1 (slotCoords h pos).2 =
      h.counts.getD pos 0 := by
    unfold get_count_at_index
    rw [slotCoords_counts_index hg pos, Int.toNat_natCast]
  have hbsb : (if iter.sub_bucket_index + 1 ≥ h.sub_bucket_count
      then (iter.bucket_index + 1, h.sub_bucket_half_count)
      else (iter.bucket_index, iter.sub_bucket_index + 1)) = slotCoords h pos := by
    rcases Nat.eq_zero_or_pos pos with hp0 | hp1
    · subst hp0
      obtain ⟨hbi, hsbi⟩ := hzero rfl
      rw [hbi, hsbi]
      have hcpos : (0:Int) < h.sub_bucket_count := by
        rw [(half_count_toNat hg).2.2.2]
        positivity
      rw [if_neg (by omega)]
      have h0lt : 0 < h.sub_bucket_count.toNat := by
        omega
      unfold slotCoords
      rw [if_pos h0lt]
      norm_num
    · obtain ⟨hco, hvf⟩ := hone hp1
      have hb := congrArg Prod.fst hco
      have hs := congrArg Prod.snd hco
      dsimp only at hb hs
      rw [hb, hs]
      have hsucc := slotCoords_succ hg (pos - 1)
      rw [Nat.sub_add_cancel hp1] at hsucc
      exact hsucc
  rw [hbsb, hgc]
  rfl

theorem firstReach_none_of_sum_lt {l : List Int} (hnn : ∀ c ∈ l, 0 ≤ c) {cap : Int}
    (hlt : l.sum < cap) : firstReach l cap = none := by
  induction l generalizing cap with
  | nil => rfl
  | cons c rest ih =>
    have hc0 : 0 ≤ c := hnn c (List.mem_cons_self c rest)
    have hrest : ∀ x ∈ rest, 0 ≤ x := fun x hx => hnn x (List.mem_cons_of_mem c hx)
    have hrsum : 0 ≤ rest.sum := List.sum_nonneg hrest
    rw [List.sum_cons] at hlt
    unfold firstReach
    rw [if_neg (by omega), ih hrest (by omega)]
    rfl

theorem firstReach_isSome :
    ∀ (l : List Int) (cap : Int), 1 ≤ cap → cap ≤ l.sum → ∃ j, firstReach l cap = some j := by
  intro l
  induction l with
  | nil =>
    intro cap h1 hle
    simp only [List.sum_nil] at hle
    omega
  | cons c rest ih =>
    intro cap h1 hle
    rw [List.sum_cons] at hle
    by_cases hc : cap ≤ c
    · exact ⟨0, by unfold firstReach; rw [if_pos hc]⟩
    · push_neg at hc
      obtain ⟨j, hj⟩ := ih (cap - c) (by omega) (by omega)
      refine ⟨j + 1, ?_⟩
      unfold firstReach
      rw [if_neg (by omega), hj]
      rfl

theorem firstReach_mono {l : List Int} {c1 c2 : Int} (hle : c1 ≤ c2) :
    ∀ {j1 j2 : Nat}, firstReach l c1 = some j1 → firstReach l c2 = some j2 → j1 ≤ j2 := by
  induction l generalizing c1 c2 with
  | nil =>
    intro j1 j2 h1 _
    exact absurd h1 (by unfold firstReach; simp)
  | cons c rest ih =>
    intro j1 j2 h1 h2
    unfold firstReach at h1 h2
    by_cases hc1 : c1 ≤ c
    · rw [if_pos hc1] at h1
      injection h1 with h1'
      omega
    · rw [if_neg hc1] at h1
      push_neg at hc1
      rw [if_neg (by omega)] at h2
      rcases hr1 : firstReach rest (c1 - c) with _ | j1'
      · rw [hr1] at h1
        simp at h1
      · rw [hr1] at h1
        rcases hr2 : firstReach rest (c2 - c) with _ | j2'
        · rw [hr2] at h2
          simp at h2
        · rw [hr2] at h2
          simp only [Option.map_some', Option.some.injEq] at h1 h2
          have hrec := ih (by omega : c1 - c ≤ c2 - c) hr1 hr2
          omega

theorem percentile_walk_spec {h : hdr_histogram}
    (hg : WFGeom h) (hnn : ∀ c ∈ h.counts, 0 ≤ c) (htc : h.total_count = sumCounts h) :
    ∀ (fuel : Nat) (pos : Nat) (iter : hdrh_iter) (cap : Int),
      IterInv h iter pos → h.counts.length - pos < fuel →
      iter.count_to_index < cap →
      percentile_walk fuel iter iter.count_to_index cap =
        (match firstReach (h.counts.drop pos) (cap - iter.count_to_index) with
          | some j => slotValue h (pos + j)
          | none => 0) := by
  intro fuel
  induction fuel with
  | zero =>
    intro pos iter cap _ hfuel _
    omega
  | succ fuel ih =>
    intro pos iter cap hinv hfuel hcap
    by_cases hhn : iter.count_to_index < h.total_count
    · obtain ⟨hplt, hnext⟩ := hdrh_iter_next_spec hg hnn htc hinv hhn
      have hinvN : IterInv h (hdrh_iter_next iter).2 (pos + 1) := by
        rw [hnext]
        refine ⟨hinv.1, hplt, ?_, fun habs => absurd habs (Nat.succ_ne_zero pos),
          fun _ => ⟨rfl, rfl⟩⟩
        show iter.count_to_index + h.counts.getD pos 0 = (h.counts.take (pos + 1)).sum
        rw [hinv.2.2.1, sum_take_succ hplt]
      have hdrop : h.counts.drop pos = h.counts.getD pos 0 :: h.counts.drop (pos + 1) := by
        rw [List.drop_eq_getElem_cons hplt, List.getD_eq_getElem h.counts 0 hplt]
      unfold percentile_walk
      rw [hnext]
      dsimp only
      rw [hdrop]
      simp only [firstReach]
      by_cases hge : iter.count_to_index + h.counts.getD pos 0 ≥ cap
      · rw [if_pos hge, if_pos (by omega)]
        rfl
      · rw [if_neg hge, if_neg (by omega)]
        have hltN : (hdrh_iter_next iter).2.count_to_index < cap := by
          rw [hnext]
          dsimp only
          omega
        have hrec := ih (pos + 1) (hdrh_iter_next iter).2 cap hinvN (by omega) hltN
        rw [hnext] at hrec
        dsimp only at hrec
        rw [hrec]
        rw [show cap - iter.count_to_index - h.counts.getD pos 0 =
          cap - (iter.count_to_index + h.counts.getD pos 0) from by ring]
        rcases hfr : firstReach (h.counts.drop (pos + 1))
            (cap - (iter.count_to_index + h.counts.getD pos 0)) with _ | j
        · rfl
        · simp only [Option.map_some']
          show slotValue h (pos + 1 + j) = slotValue h (pos + (j + 1))
          congr 1
          omega
    · push_neg at hhn
      have hni : hdrh_iter_next iter = (false, iter) := by
        have hhnf : has_next iter = false := by
          unfold has_next
          rw [hinv.1]
          exact decide_eq_false (by omega)
        unfold hdrh_iter_next
        rw [if_pos (by simp [hhnf])]
      unfold percentile_walk
      rw [hni]
      dsimp only
      have hsplit : (h.counts.take pos).sum + (h.counts.drop pos).sum = h.counts.sum := by
        rw [← List.sum_append, List.take_append_drop]
      have hcti := hinv.2.2.1
      unfold sumCounts at htc
      have hsum : (h.counts.drop pos).sum < cap - iter.count_to_index := by
        omega
      rw [firstReach_none_of_sum_lt (fun c hc => hnn c (List.drop_subset _ _ hc)) hsum]

theorem ratTrunc_eq_floor {q : ℚ} (hq : 0 ≤ q) : ratTrunc q = ⌊q⌋ := by
  unfold ratTrunc
  rw [Int.tdiv_eq_ediv (Rat.num_nonneg.mpr hq) (by positivity), Rat.floor_def]

theorem ratTrunc_neg (q : ℚ) : ratTrunc (-q) = - ratTrunc q := by
  unfold ratTrunc
  rw [Rat.neg_num, Rat.neg_den, Int.neg_tdiv]

theorem ratTrunc_eq_ceil {q : ℚ} (hq : q ≤ 0) : ratTrunc q = ⌈q⌉ := by
  have hneg := ratTrunc_neg q
  have hq' : ratTrunc q = - ratTrunc (-q) := by omega
  rw [hq', ratTrunc_eq_floor (by linarith), Int.floor_neg, neg_neg]

theorem ratTrunc_mono {x y : ℚ} (hxy : x ≤ y) : ratTrunc x ≤ ratTrunc y := by
  rcases le_or_lt 0 x with hx | hx
  · rw [ratTrunc_eq_floor hx, ratTrunc_eq_floor (le_trans hx hxy)]
    exact Int.floor_le_floor hxy
  · rcases le_or_lt 0 y with hy | hy
    · have hl : ratTrunc x ≤ 0 := by
        rw [ratTrunc_eq_ceil (le_of_lt hx)]
        exact Int.ceil_le.mpr (by exact_mod_cast le_of_lt hx)
      have hr : 0 ≤ ratTrunc y := by
        rw [ratTrunc_eq_floor hy]
        exact Int.floor_nonneg.mpr hy
      omega
    · rw [ratTrunc_eq_ceil (le_of_lt hx), ratTrunc_eq_ceil (le_of_lt hy)]
      exact Int.ceil_le_ceil hxy

/-- The walk of `hdrh_value_at_percentile` computes exactly the amended
declarative description, for every well-formed histogram and percentile. -/
theorem value_at_percentile_eq_amended (h : hdr_histogram) (hw : WFHist h) (p : ℚ) :
    hdrh_value_at_percentile h p = amendedValueAtPercentile h p := by
  obtain ⟨hg, hlen, hnn, htc⟩ := hw
  unfold hdrh_value_at_percentile amendedValueAtPercentile
  dsimp only
  have hmin : (min p 100 : ℚ) = if p < 100 then p else 100 := by
    split
    · exact min_eq_left (le_of_lt (by assumption))
    · exact min_eq_right (not_lt.1 (by assumption))
  rw [hmin]
  set cap0 := ratTrunc ((if p < 100 then p else 100) / 100 * (h.total_count : ℚ) + 1 / 2)
    with hcap0
  have hmax : max 1 cap0 = if cap0 > 1 then cap0 else 1 := by
    rcases le_or_lt cap0 1 with hle | hlt
    · rw [max_eq_left hle, if_neg (by omega)]
    · rw [max_eq_right (le_of_lt hlt), if_pos hlt]
  rw [hmax]
  set cap1 := if cap0 > 1 then cap0 else 1 with hcap1
  have hcap1ge : 1 ≤ cap1 := by
    rw [hcap1]
    split <;> omega
  have hinv0 : IterInv h (hdrh_iter_init h) 0 := by
    refine ⟨rfl, Nat.zero_le _, rfl, fun _ => ⟨rfl, rfl⟩, fun habs => absurd habs (by omega)⟩
  have hspec := percentile_walk_spec hg hnn htc (h.counts.length + 1) 0 (hdrh_iter_init h) cap1
    hinv0 (by omega) (by rw [show (hdrh_iter_init h).count_to_index = 0 from rfl]; omega)
  rw [show (hdrh_iter_init h).count_to_index = 0 from rfl] at hspec
  rw [List.drop_zero, sub_zero] at hspec
  rw [hspec]
  rcases hfr : firstReach h.counts cap1 with _ | j
  · rfl
  · show slotValue h (0 + j) = slotValue h j
    rw [Nat.zero_add]

/-- Claim C3, amended.  `hdrh_value_at_percentile` clamps the percentile to
100, takes the threshold `max(1, trunc((p/100)·total_count + 1/2))` — not
`round((p/100)·total_count)` — walks the all-values iterator to the first
slot whose cumulative count reaches that threshold, and returns that
slot's `value_from_index` (its lowest equivalent value, not its highest);
it returns 0 when no slot reaches the threshold, in particular for an
empty histogram. -/
theorem C3_value_at_percentile (h : hdr_histogram) (hw : WFHist h) (p : ℚ) :
    hdrh_value_at_percentile h p = amendedValueAtPercentile h p :=
  value_at_percentile_eq_amended h hw p

theorem C3_value_at_percentile_witness :
    WFHist histEx2000r ∧
      hdrh_value_at_percentile histEx2000r 50 = amendedValueAtPercentile histEx2000r 50 :=
  ⟨WFHist_histEx2000r, C3_value_at_percentile histEx2000r WFHist_histEx2000r 50⟩

set_option maxRecDepth 20000

/-- Claim C3 as stated is false: on the histogram holding the single value
1, the claim's description (threshold `round((p/100)·total)`, returning
the highest equivalent value) yields 0 at percentile 0, but the code
yields 1: its threshold is `max(1, trunc(0·total + 1/2)) = 1`, not
`round(0) = 0`, so the walk passes the zero-count slot 0 and stops at slot
1. -/
theorem C3_counterexample :
    hdrh_value_at_percentile histEx2000r 0 = 1 ∧ claimValueAtPercentile histEx2000r 0 = 0 := by
  constructor
  · rw [value_at_percentile_eq_amended histEx2000r WFHist_histEx2000r 0]
    unfold amendedValueAtPercentile
    dsimp only
    have harg : min (0:ℚ) 100 / 100 * (histEx2000r.total_count : ℚ) + 1 / 2 = 1 / 2 := by
      rw [show histEx2000r.total_count = 1 from by decide,
        show (min (0:ℚ) 100) = 0 from by norm_num]
      norm_num
    rw [harg]
    have htr : ratTrunc (1 / 2 : ℚ) = 0 := by
      rw [ratTrunc_eq_floor (by norm_num)]
      norm_num
    rw [htr, show max (1:Int) 0 = 1 from by decide]
    rw [show firstReach histEx2000r.counts 1 = some 1 from by decide]
    decide
  · unfold claimValueAtPercentile
    rw [if_neg (by decide : ¬ (histEx2000r.total_count = 0))]
    dsimp only
    have hth : round (min (0:ℚ) 100 / 100 * (histEx2000r.total_count : ℚ)) = 0 := by
      rw [show min (0:ℚ) 100 / 100 * (histEx2000r.total_count : ℚ) = 0 from by
        rw [show (min (0:ℚ) 100) = 0 from by norm_num]
        ring]
      exact round_zero
    rw [hth]
    rw [show firstReach histEx2000r.counts 0 = some 0 from by decide]
    decide

/-- Claim C5: `hdrh_value_at_percentile` is monotone in the percentile.
The threshold `max(1, trunc((min p 100/100)·total + 1/2))` is monotone in
`p` and never exceeds `total_count`, the walk stops no earlier for a
larger threshold, and the iterator's values increase along the walk. -/
theorem C5_percentile_monotone (h : hdr_histogram) (hw : WFHist h) (p1 p2 : ℚ)
    (hp : p1 ≤ p2) :
    hdrh_value_at_percentile h p1 ≤ hdrh_value_at_percentile h p2 := by
  obtain ⟨hg, hlen, hnn, htc⟩ := hw
  rw [value_at_percentile_eq_amended h ⟨hg, hlen, hnn, htc⟩ p1,
    value_at_percentile_eq_amended h ⟨hg, hlen, hnn, htc⟩ p2]
  unfold amendedValueAtPercentile
  dsimp only
  unfold sumCounts at htc
  have htot0 : 0 ≤ h.total_count := by
    rw [htc]
    exact List.sum_nonneg hnn
  set T := (h.total_count : ℚ) with hT
  have hTc : 0 ≤ T := by
    rw [hT]
    exact_mod_cast htot0
  have hqle : min p1 100 / 100 * T + 1 / 2 ≤ min p2 100 / 100 * T + 1 / 2 := by
    have h1 : min p1 100 ≤ min p2 100 := min_le_min hp (le_refl _)
    have h2 : min p1 100 / 100 ≤ min p2 100 / 100 := by linarith
    have h3 := mul_le_mul_of_nonneg_right h2 hTc
    linarith
  set c1 := max 1 (ratTrunc (min p1 100 / 100 * T + 1 / 2)) with hc1
  set c2 := max 1 (ratTrunc (min p2 100 / 100 * T + 1 / 2)) with hc2
  have hcle : c1 ≤ c2 := max_le_max (le_refl _) (ratTrunc_mono hqle)
  have h11 : 1 ≤ c1 := le_max_left _ _
  have h12 : 1 ≤ c2 := le_max_left _ _
  rcases lt_or_le h.total_count 1 with htlt | htge
  · have hsum0 : h.counts.sum = 0 := by omega
    rw [firstReach_none_of_sum_lt hnn (by omega : h.counts.sum < c1),
      firstReach_none_of_sum_lt hnn (by omega : h.counts.sum < c2)]
  · have hc2le : c2 ≤ h.total_count := by
      have hm : min p2 100 ≤ 100 := min_le_right _ _
      have hr1 : min p2 100 / 100 ≤ 1 := by linarith
      have hr2 := mul_le_mul_of_nonneg_right hr1 hTc
      have hq2 : min p2 100 / 100 * T + 1 / 2 ≤ T + 1 / 2 := by linarith
      have htr3 : ratTrunc (T + 1 / 2) = h.total_count := by
        rw [ratTrunc_eq_floor (by linarith), hT, Int.floor_eq_iff]
        constructor
        · linarith
        · push_cast
          linarith
      have htr2 := ratTrunc_mono hq2
      rw [htr3] at htr2
      rw [hc2]
      exact max_le (by omega) htr2
    have hsum : c2 ≤ h.counts.sum := by omega
    obtain ⟨j2, hj2⟩ := firstReach_isSome h.counts c2 h12 hsum
    obtain ⟨j1, hj1⟩ := firstReach_isSome h.counts c1 h11 (by omega)
    rw [hj1, hj2]
    show slotValue h j1 ≤ slotValue h j2
    exact slotValue_mono hg (firstReach_mono hcle hj1 hj2)

theorem C5_percentile_monotone_witness :
    WFHist histEx2000r ∧ (25:ℚ) ≤ 75 ∧
      hdrh_value_at_percentile histEx2000r 25 ≤ hdrh_value_at_percentile histEx2000r 75 :=
  ⟨WFHist_histEx2000r, by norm_num,
    C5_percentile_monotone histEx2000r WFHist_histEx2000r 25 75 (by norm_num)⟩

/-! ## Claims C6 and C7: the writer/reader phaser -/

/-- Claim C7 fails in the source: `hdr_writer_reader_phaser_init` sets
`odd_end_epoch = INT64_MAX` (`2^63 - 1`), not `INT64_MIN`, and a flip out
of the even phase pre-sets the incoming odd phase's `odd_end_epoch` to
`INT64_MAX` as well (lines 59 and 130 of hdr_writer_reader_phaser.h). -/
theorem C7_phaser_sentinel_bug :
    hdr_writer_reader_phaser_init.start_epoch = 0 ∧
    hdr_writer_reader_phaser_init.even_end_epoch = 0 ∧
    hdr_writer_reader_phaser_init.odd_end_epoch = 2 ^ 63 - 1 ∧
    hdr_writer_reader_phaser_init.odd_end_epoch ≠ -(2 ^ 63) ∧
    (hdr_phaser_flip_begin hdr_writer_reader_phaser_init).2.1 = false ∧
    (hdr_phaser_flip_begin hdr_writer_reader_phaser_init).2.2.odd_end_epoch = 2 ^ 63 - 1 ∧
    (hdr_phaser_flip_begin hdr_writer_reader_phaser_init).2.2.odd_end_epoch ≠ -(2 ^ 63) := by
  refine ⟨rfl, rfl, rfl, by decide, rfl, rfl, by decide⟩

/-- Claim C6 fails in the source: the first flip completes (no writer is
active) and moves the phaser to the odd phase, but because the sentinel is
`INT64_MAX` instead of `INT64_MIN` the new `start_epoch` is positive, so
the next `writer_enter` returns the non-negative token `2^63 - 1` whose
sign does not match the odd phase; its `writer_exit` therefore bumps
`even_end_epoch`, and the following flip's caught-up test — which waits
for `odd_end_epoch` to equal the exchanged start value — is false even
though every writer has exited, so that flip spins forever. -/
theorem C6_phaser_drain_bug :
    hdr_phaser_flip_caught_up (hdr_phaser_flip_begin hdr_writer_reader_phaser_init).2.1
        (hdr_phaser_flip_begin hdr_writer_reader_phaser_init).1 phaserAfterFlip = true ∧
    (hdr_phaser_flip_begin hdr_writer_reader_phaser_init).2.1 = false ∧
    (hdr_phaser_writer_enter phaserAfterFlip).1 ≥ 0 ∧
    hdr_phaser_flip_caught_up
      (hdr_phaser_flip_begin (hdr_phaser_writer_exit
        (hdr_phaser_writer_enter phaserAfterFlip).2
        (hdr_phaser_writer_enter phaserAfterFlip).1)).2.1
      (hdr_phaser_flip_begin (hdr_phaser_writer_exit
        (hdr_phaser_writer_enter phaserAfterFlip).2
        (hdr_phaser_writer_enter phaserAfterFlip).1)).1
      (hdr_phaser_flip_begin (hdr_phaser_writer_exit
        (hdr_phaser_writer_enter phaserAfterFlip).2
        (hdr_phaser_writer_enter phaserAfterFlip).1)).2.2 = false := by
  refine ⟨by decide, rfl, by decide, by decide⟩

/-! ## Claim C9: the log header parser -/

/-- Claim C9 fails in the source: `hdr_parse_log` returns 0 for every
input — the version check is an unimplemented `TODO` (line 733), so a log
whose format-version line is absent still succeeds instead of failing with
`HDR_LOG_INVALID_VERSION`.  The population half of the claim does hold:
a version-1.1 line and a StartTime line fill the header fields. -/
theorem C9_parse_log_no_version_check :
    (∀ lines : List (List Char), hdr_parse_log lines = 0) ∧
    hdr_parse_log [] ≠ HDR_LOG_INVALID_VERSION ∧
    parse_log_comments
        [("#[Histogram log format version 1.1]").toList,
         ("#[StartTime: 1404700005.222 (seconds since epoch)]").toList] =
      { major_version := 1, minor_version := 1, start_time_ms := 1404700005222 } := by
  refine ⟨fun lines => rfl, by decide, by decide⟩

/-! ## Claim C10: `hdr_decode_compressed` result discipline -/

/-- Claim C10: `hdr_decode_compressed` returns `EINVAL` exactly as claimed
when the length cannot hold the 8-byte compression header or `*result` is
already set; every non-zero return (EINVAL, cookie mismatches, inflate
failures, allocation failure) leaves `*result` unchanged; and `*result` is
assigned a histogram exactly when the return is 0. -/
theorem C10_decode_compressed_result (buffer : List Nat) (length : Nat)
    (zlib : zlib_inflate) (alloc_ok : Bool) (result : Option hdr_histogram_v1) :
    (length < 8 ∨ result ≠ none →
      hdr_decode_compressed buffer length zlib alloc_ok result = (EINVAL, result)) ∧
    ((hdr_decode_compressed buffer length zlib alloc_ok result).1 ≠ 0 →
      (hdr_decode_compressed buffer length zlib alloc_ok result).2 = result) ∧
    ((hdr_decode_compressed buffer length zlib alloc_ok result).1 = 0 →
      ∃ hist, (hdr_decode_compressed buffer length zlib alloc_ok result).2 = some hist) := by
  have hkey :
      ((hdr_decode_compressed buffer length zlib alloc_ok result).1 ≠ 0 →
        (hdr_decode_compressed buffer length zlib alloc_ok result).2 = result) ∧
      ((hdr_decode_compressed buffer length zlib alloc_ok result).1 = 0 →
        ∃ hist, (hdr_decode_compressed buffer length zlib alloc_ok result).2 = some hist) := by
    unfold hdr_decode_compressed
    dsimp only
    split
    · exact ⟨fun _ => rfl, fun h0 => absurd (show EINVAL = 0 from h0) (by decide)⟩
    · split
      · exact ⟨fun _ => rfl,
          fun h0 => absurd (show HDR_COMPRESSION_COOKIE_MISMATCH = 0 from h0) (by decide)⟩
      · split
        · exact ⟨fun _ => rfl, fun h0 => absurd (show HDR_INFLATE_INIT_FAIL = 0 from h0) (by decide)⟩
        · split
          · exact ⟨fun _ => rfl, fun h0 => absurd (show HDR_INFLATE_FAIL = 0 from h0) (by decide)⟩
          · split
            · exact ⟨fun _ => rfl,
                fun h0 => absurd (show HDR_ENCODING_COOKIE_MISMATCH = 0 from h0) (by decide)⟩
            · split
              · exact ⟨fun _ => rfl, fun h0 => absurd (show ENOMEM = 0 from h0) (by decide)⟩
              · split
                · next hne => exact ⟨fun _ => rfl, fun h0 => absurd h0 hne⟩
                · exact ⟨fun hne => absurd rfl hne, fun _ => ⟨_, rfl⟩⟩
  refine ⟨?_, hkey.1, hkey.2⟩
  intro hc
  unfold hdr_decode_compressed
  rw [if_pos hc]

/-! ## Claim C8: the base64 round-trip -/

theorem base64_table_from :
    ∀ k : Fin 64, from_base_64 (base64_table.getD k.val 'A') = (k.val : Int) := by
  decide

theorem from_get_base_64 (v s : Nat) :
    (from_base_64 (get_base_64 v s)).toNat = 63 &&& v >>> s := by
  have hk : 63 &&& v >>> s < 64 := by
    have hle : 63 &&& v >>> s ≤ 63 := Nat.and_le_left
    omega
  have h := base64_table_from ⟨63 &&& v >>> s, hk⟩
  dsimp only at h
  unfold get_base_64
  dsimp only
  rw [h]
  exact Int.toNat_natCast _

theorem and63_mod (x : Nat) : 63 &&& x = x % 64 := by
  have h := Nat.and_pow_two_sub_one_eq_mod x 6
  norm_num at h
  rw [Nat.and_comm]
  exact h

theorem and255_mod (x : Nat) : x &&& 255 = x % 256 := by
  have h := Nat.and_pow_two_sub_one_eq_mod x 8
  norm_num at h
  exact h

theorem or_eq_add_of_lt {n a b c : Nat} (ha : a = 2 ^ n * c) (hb : b < 2 ^ n) :
    a ||| b = a + b := by
  subst ha
  exact (Nat.mul_add_lt_is_or hb c).symm

theorem or_reconstruct {v : Nat} (hv : v < 2 ^ 24) :
    (63 &&& v >>> 18) <<< 18 ||| (63 &&& v >>> 12) <<< 12 |||
      (63 &&& v >>> 6) <<< 6 ||| (63 &&& v >>> 0) = v := by
  have e0 : 63 &&& v >>> 18 = v / 262144 % 64 := by
    rw [and63_mod, Nat.shiftRight_eq_div_pow]
  have e1 : 63 &&& v >>> 12 = v / 4096 % 64 := by
    rw [and63_mod, Nat.shiftRight_eq_div_pow]
  have e2 : 63 &&& v >>> 6 = v / 64 % 64 := by
    rw [and63_mod, Nat.shiftRight_eq_div_pow]
  have e3 : 63 &&& v >>> 0 = v % 64 := by
    rw [and63_mod, Nat.shiftRight_eq_div_pow]
    norm_num
  rw [e0, e1, e2, e3, Nat.shiftLeft_eq, Nat.shiftLeft_eq, Nat.shiftLeft_eq]
  norm_num
  rw [or_eq_add_of_lt
    (show v / 262144 % 64 * 262144 = 2 ^ 18 * (v / 262144 % 64) from by
      rw [Nat.mul_comm]
      norm_num)
    (show v / 4096 % 64 * 4096 < 2 ^ 18 from by
      have h : v / 4096 % 64 < 64 := Nat.mod_lt _ (by norm_num)
      norm_num
      omega)]
  rw [or_eq_add_of_lt
    (show v / 262144 % 64 * 262144 + v / 4096 % 64 * 4096 =
        2 ^ 12 * (v / 262144 % 64 * 64 + v / 4096 % 64) from by
      rw [show (2:Nat) ^ 12 = 4096 from by norm_num]
      ring)
    (show v / 64 % 64 * 64 < 2 ^ 12 from by
      have h : v / 64 % 64 < 64 := Nat.mod_lt _ (by norm_num)
      norm_num
      omega)]
  rw [or_eq_add_of_lt
    (show v / 262144 % 64 * 262144 + v / 4096 % 64 * 4096 + v / 64 % 64 * 64 =
        2 ^ 6 * (v / 262144 % 64 * 4096 + v / 4096 % 64 * 64 + v / 64 % 64) from by
      rw [show (2:Nat) ^ 6 = 64 from by norm_num]
      ring)
    (show v % 64 < 2 ^ 6 from by
      have h : v % 64 < 64 := Nat.mod_lt _ (by norm_num)
      norm_num
      omega)]
  norm_num at hv
  omega

theorem base64_decode_block_of_get {v : Nat} (hv : v < 2 ^ 24) {c2 c3 : Char}
    (h2 : (from_base_64 c2).toNat = 63 &&& v >>> 6)
    (h3 : (from_base_64 c3).toNat = 63 &&& v >>> 0) :
    base64_decode_block (get_base_64 v 18) (get_base_64 v 12) c2 c3 =
      [v >>> 16 &&& 255, v >>> 8 &&& 255, v &&& 255] := by
  unfold base64_decode_block
  dsimp only
  rw [from_get_base_64 v 18, from_get_base_64 v 12, h2, h3, or_reconstruct hv]

theorem base64_decode_encode_block {b0 b1 b2 : Nat} (h0 : b0 < 256) (h1 : b1 < 256)
    (h2 : b2 < 256) (rest : List Char) :
    base64_decode_blocks (base64_encode_block b0 b1 b2 ++ rest) =
      [b0, b1, b2] ++ base64_decode_blocks rest := by
  have hveq : (b0 <<< 16) + (b1 <<< 8) + b2 = b0 * 65536 + b1 * 256 + b2 := by
    rw [Nat.shiftLeft_eq, Nat.shiftLeft_eq]
  unfold base64_encode_block
  dsimp only
  rw [hveq]
  set v := b0 * 65536 + b1 * 256 + b2 with hvdef
  have hv24 : v < 2 ^ 24 := by
    rw [hvdef]
    norm_num
    omega
  simp only [List.cons_append, List.nil_append]
  simp only [base64_decode_blocks]
  rw [base64_decode_block_of_get hv24 (from_get_base_64 v 6) (from_get_base_64 v 0)]
  have e0 : v >>> 16 &&& 255 = b0 := by
    rw [and255_mod, Nat.shiftRight_eq_div_pow, hvdef]
    norm_num
    omega
  have e1 : v >>> 8 &&& 255 = b1 := by
    rw [and255_mod, Nat.shiftRight_eq_div_pow, hvdef]
    norm_num
    omega
  have e2 : v &&& 255 = b2 := by
    rw [and255_mod, hvdef]
    omega
  rw [e0, e1, e2]
  rfl

theorem base64_decode_encode_pad1 {b0 : Nat} (h0 : b0 < 256) :
    base64_decode_blocks (base64_encode_block_pad [b0]) = [b0, 0, 0] := by
  have hveq : b0 <<< 16 = b0 * 65536 := by
    rw [Nat.shiftLeft_eq]
  unfold base64_encode_block_pad
  dsimp only
  rw [hveq]
  set v := b0 * 65536 with hvdef
  have hv24 : v < 2 ^ 24 := by
    rw [hvdef]
    norm_num
    omega
  have hc2 : (from_base_64 '=').toNat = 63 &&& v >>> 6 := by
    rw [show (from_base_64 '=').toNat = 0 from by decide, and63_mod,
      Nat.shiftRight_eq_div_pow, hvdef]
    norm_num
    omega
  have hc3 : (from_base_64 '=').toNat = 63 &&& v >>> 0 := by
    rw [show (from_base_64 '=').toNat = 0 from by decide, and63_mod,
      Nat.shiftRight_eq_div_pow, hvdef]
    norm_num
    omega
  simp only [base64_decode_blocks]
  rw [base64_decode_block_of_get hv24 hc2 hc3]
  have e0 : v >>> 16 &&& 255 = b0 := by
    rw [and255_mod, Nat.shiftRight_eq_div_pow, hvdef]
    norm_num
    omega
  have e1 : v >>> 8 &&& 255 = 0 := by
    rw [and255_mod, Nat.shiftRight_eq_div_pow, hvdef]
    norm_num
    omega
  have e2 : v &&& 255 = 0 := by
    rw [and255_mod, hvdef]
    omega
  rw [e0, e1, e2]
  rfl

theorem base64_decode_encode_pad2 {b0 b1 : Nat} (h0 : b0 < 256) (h1 : b1 < 256) :
    base64_decode_blocks (base64_encode_block_pad [b0, b1]) = [b0, b1, 0] := by
  have hveq : (b0 <<< 16) + (b1 <<< 8) = b0 * 65536 + b1 * 256 := by
    rw [Nat.shiftLeft_eq, Nat.shiftLeft_eq]
  unfold base64_encode_block_pad
  dsimp only
  rw [hveq]
  set v := b0 * 65536 + b1 * 256 with hvdef
  have hv24 : v < 2 ^ 24 := by
    rw [hvdef]
    norm_num
    omega
  have hc3 : (from_base_64 '=').toNat = 63 &&& v >>> 0 := by
    rw [show (from_base_64 '=').toNat = 0 from by decide, and63_mod,
      Nat.shiftRight_eq_div_pow, hvdef]
    norm_num
    omega
  simp only [base64_decode_blocks]
  rw [base64_decode_block_of_get hv24 (from_get_base_64 v 6) hc3]
  have e0 : v >>> 16 &&& 255 = b0 := by
    rw [and255_mod, Nat.shiftRight_eq_div_pow, hvdef]
    norm_num
    omega
  have e1 : v >>> 8 &&& 255 = b1 := by
    rw [and255_mod, Nat.shiftRight_eq_div_pow, hvdef]
    norm_num
    omega
  have e2 : v &&& 255 = 0 := by
    rw [and255_mod, hvdef]
    omega
  rw [e0, e1, e2]
  rfl

theorem base64_decode_encode_aux :
    ∀ (n : Nat) (x : List Nat), x.length ≤ n → (∀ b ∈ x, b < 256) →
      base64_decode_blocks (base64_encode_blocks x) =
        x ++ List.replicate ((3 - x.length % 3) % 3) 0 := by
  intro n
  induction n with
  | zero =>
    intro x hlen _
    have hx : x = [] := List.eq_nil_of_length_eq_zero (by omega)
    subst hx
    decide
  | succ n ih =>
    intro x hlen hb
    rcases x with _ | ⟨b0, x1⟩
    · decide
    rcases x1 with _ | ⟨b1, x2⟩
    · have h0 : b0 < 256 := hb b0 (by simp)
      rw [show base64_encode_blocks [b0] = base64_encode_block_pad [b0] from rfl,
        base64_decode_encode_pad1 h0]
      rfl
    rcases x2 with _ | ⟨b2, rest⟩
    · have h0 : b0 < 256 := hb b0 (by simp)
      have h1 : b1 < 256 := hb b1 (by simp)
      rw [show base64_encode_blocks [b0, b1] = base64_encode_block_pad [b0, b1] from rfl,
        base64_decode_encode_pad2 h0 h1]
      rfl
    · have h0 : b0 < 256 := hb b0 (by simp)
      have h1 : b1 < 256 := hb b1 (by simp)
      have h2 : b2 < 256 := hb b2 (by simp)
      have hrest : ∀ b ∈ rest, b < 256 := fun b hbm => hb b (by simp [hbm])
      have hlen' : rest.length ≤ n := by
        simp only [List.length_cons] at hlen
        omega
      rw [show base64_encode_blocks (b0 :: b1 :: b2 :: rest) =
          base64_encode_block b0 b1 b2 ++ base64_encode_blocks rest from rfl,
        base64_decode_encode_block h0 h1 h2 (base64_encode_blocks rest),
        ih rest hlen' hrest]
      have hmod : ((b0 :: b1 :: b2 :: rest).length % 3) = rest.length % 3 := by
        simp only [List.length_cons]
        omega
      rw [hmod]
      simp only [List.cons_append, List.nil_append]

theorem base64_encode_blocks_length :
    ∀ (n : Nat) (x : List Nat), x.length ≤ n →
      (base64_encode_blocks x).length = (x.length + 2) / 3 * 4 := by
  intro n
  induction n with
  | zero =>
    intro x hlen
    have hx : x = [] := List.eq_nil_of_length_eq_zero (by omega)
    subst hx
    rfl
  | succ n ih =>
    intro x hlen
    rcases x with _ | ⟨b0, x1⟩
    · rfl
    rcases x1 with _ | ⟨b1, x2⟩
    · rw [show base64_encode_blocks [b0] = base64_encode_block_pad [b0] from rfl]
      norm_num [base64_encode_block_pad]
    rcases x2 with _ | ⟨b2, rest⟩
    · rw [show base64_encode_blocks [b0, b1] = base64_encode_block_pad [b0, b1] from rfl]
      norm_num [base64_encode_block_pad]
    · have hlen' : rest.length ≤ n := by
        simp only [List.length_cons] at hlen
        omega
      rw [show base64_encode_blocks (b0 :: b1 :: b2 :: rest) =
          base64_encode_block b0 b1 b2 ++ base64_encode_blocks rest from rfl,
        List.length_append, ih rest hlen',
        show (base64_encode_block b0 b1 b2).length = 4 from rfl]
      simp only [List.length_cons]
      omega

/-- Claim C8, amended.  For every non-empty byte string `x` the encoder
with its exact buffer length succeeds, and decoding the result (with the
exact buffer length the decoder derives) succeeds but returns `x` padded
with one or two zero bytes whenever `|x| mod 3 ≠ 0` — the decoder emits
three bytes for every four characters, including the `'='`-padded final
block; the round-trip is the identity exactly when `|x|` is a multiple of
3.  (For `x = []` the decoder rejects the empty encoding outright.) -/
theorem C8_base64_roundtrip (x : List Nat) (hx : x ≠ []) (hb : ∀ b ∈ x, b < 256) :
    base64_encode x (base64_encoded_len x.length) = some (base64_encode_blocks x) ∧
    base64_decode (base64_encode_blocks x)
        (base64_decoded_len (base64_encoded_len x.length)) =
      some (x ++ List.replicate ((3 - x.length % 3) % 3) 0) ∧
    (x.length % 3 = 0 →
      base64_decode (base64_encode_blocks x)
          (base64_decoded_len (base64_encoded_len x.length)) = some x) := by
  have hxlen : 1 ≤ x.length := by
    rcases x with _ | ⟨b, t⟩
    · exact absurd rfl hx
    · simp
  have hlen := base64_encode_blocks_length x.length x (le_refl _)
  have hdec : base64_decode (base64_encode_blocks x)
      (base64_decoded_len (base64_encoded_len x.length)) =
      some (x ++ List.replicate ((3 - x.length % 3) % 3) 0) := by
    unfold base64_decode
    rw [if_neg]
    · rw [base64_decode_encode_aux x.length x (le_refl _) hb]
    · push_neg
      unfold base64_decoded_len base64_encoded_len
      refine ⟨?_, ?_, ?_⟩
      · rw [hlen]
        omega
      · rw [hlen]
        omega
      · rw [hlen]
  refine ⟨?_, hdec, ?_⟩
  · unfold base64_encode
    rw [if_neg (by simp)]
  · intro h3
    rw [hdec, h3]
    norm_num

/-- Claim C8 as stated is false: `decode(encode([77]))` yields
`[77, 0, 0]`, not `[77]` — the decoder always emits three bytes per
four-character block, zero-filling the positions covered by `'='`
padding; and the empty string does not round-trip at all, since the
decoder rejects inputs shorter than four characters with `EINVAL`. -/
theorem C8_counterexample :
    base64_encode [77] (base64_encoded_len 1) = some ['T', 'Q', '=', '='] ∧
    base64_decode ['T', 'Q', '=', '='] (base64_decoded_len 4) = some [77, 0, 0] ∧
    ([77, 0, 0] : List Nat) ≠ [77] ∧
    base64_encode [] (base64_encoded_len 0) = some [] ∧
    base64_decode [] (base64_decoded_len 0) = none := by
  refine ⟨by decide, by decide, by decide, by decide, by decide⟩

theorem C8_base64_roundtrip_witness :
    ([1, 2, 3] : List Nat) ≠ [] ∧
    base64_decode (base64_encode_blocks [1, 2, 3])
        (base64_decoded_len (base64_encoded_len ([1, 2, 3] : List Nat).length)) =
      some ([1, 2, 3] ++ List.replicate ((3 - ([1, 2, 3] : List Nat).length % 3) % 3) 0) :=
  ⟨by decide, (C8_base64_roundtrip [1, 2, 3] (by decide) (by decide)).2.1⟩
